import Mathlib

/-!
Verification development for the remote-radar repository.

The Go sources are embedded shallowly: strings become `List Char`,
`datatypes.JSONMap` becomes an association list over a JSON-value type,
`time.Time` becomes either an abstract instant (`Int`, for the crawl
cutoff comparisons) or a civil `DateTime` (for the cron scheduler),
fallible operations return `Except` / `Option`, and the external world
(HTTP pages, the completion service, JSON decoding done by the standard
library) is passed in as explicit oracle functions.  Machine integers do
not overflow in any of the embedded code paths (counts and scores are
tiny), so `Nat`/`Int` are used directly.
-/

namespace RemoteRadar

/-! ## String helpers (char-list forms of the Go strings functions) -/

/-- Whitespace test mirroring `unicode.IsSpace` on the characters that can
actually occur around the tag strings handled here (ASCII whitespace plus
the two Latin-1 space characters). -/
def isSpaceChar (c : Char) : Bool :=
  c == ' ' || c == '\t' || c == '\n' || c == '\x0b' || c == '\x0c' || c == '\r' ||
  c == '\x85' || c == '\xa0'

/-- Character-list form of `strings.ToLower` (ASCII case folding; the
strings compared in the embedded code are ASCII). -/
def toLowerL (l : List Char) : List Char :=
  l.map Char.toLower

/-- Drop trailing characters satisfying `p`. -/
def dropWhileEnd (p : Char → Bool) (l : List Char) : List Char :=
  ((l.reverse).dropWhile p).reverse

/-- Character-list form of `strings.TrimSpace`. -/
def trimSpaceL (l : List Char) : List Char :=
  dropWhileEnd isSpaceChar (l.dropWhile isSpaceChar)

/-- Does `l` start with `pat`? (char-list form of `strings.HasPrefix`). -/
def startsWith : List Char → List Char → Bool
  | [], _ => true
  | _ :: _, [] => false
  | p :: ps, c :: cs => p == c && startsWith ps cs

/-- Character-list form of `strings.Contains` (contiguous substring). -/
def containsSub : List Char → List Char → Bool
  | l, pat =>
    match l with
    | [] => pat.isEmpty
    | _ :: rest => startsWith pat l || containsSub rest pat

/-- Character-list form of `strings.TrimSuffix`. -/
def trimSuffixL (l suffix : List Char) : List Char :=
  if startsWith suffix.reverse l.reverse then l.take (l.length - suffix.length) else l

/-- Fuel-driven worker for `replaceAllL`. -/
def replaceAllAux (pat rep : List Char) : Nat → List Char → List Char
  | 0, l => l
  | _ + 1, [] => []
  | fuel + 1, c :: rest =>
    if startsWith pat (c :: rest) then
      rep ++ replaceAllAux pat rep fuel ((c :: rest).drop pat.length)
    else
      c :: replaceAllAux pat rep fuel rest

/-- Character-list form of `strings.ReplaceAll`.  All call sites in the
embedded code use non-empty patterns, so the empty-pattern case (where Go
would interleave the replacement between characters) returns the input. -/
def replaceAllL (l pat rep : List Char) : List Char :=
  if pat.isEmpty then l else replaceAllAux pat rep l.length l

/-- Worker for `splitOnCharL`, accumulating the current (reversed) chunk. -/
def splitOnCharAux (sep : Char) : List Char → List Char → List (List Char)
  | [], cur => [cur.reverse]
  | c :: rest, cur =>
    if c == sep then cur.reverse :: splitOnCharAux sep rest []
    else splitOnCharAux sep rest (c :: cur)

/-- Character-list form of `strings.Split` with a one-character separator. -/
def splitOnCharL (sep : Char) (l : List Char) : List (List Char) :=
  splitOnCharAux sep l []

/-- Worker for `fieldsL`, accumulating the current (reversed) word. -/
def fieldsAux : List Char → List Char → List (List Char)
  | [], cur => if cur.isEmpty then [] else [cur.reverse]
  | c :: rest, cur =>
    if isSpaceChar c then
      if cur.isEmpty then fieldsAux rest [] else cur.reverse :: fieldsAux rest []
    else
      fieldsAux rest (c :: cur)

/-- Character-list form of `strings.Fields` (split around whitespace runs). -/
def fieldsL (l : List Char) : List (List Char) :=
  fieldsAux l []

/-- Digit-list accumulation for `atoiL`. -/
def digitsVal : List Char → Option Nat
  | [] => none
  | l => go l 0
where
  go : List Char → Nat → Option Nat
    | [], acc => some acc
    | c :: rest, acc =>
      if c.isDigit then go rest (acc * 10 + (c.toNat - '0'.toNat)) else none

/-- Character-list form of `strconv.Atoi`: optional sign followed by at
least one decimal digit. -/
def atoiL : List Char → Option Int
  | '+' :: rest => (digitsVal rest).map fun n => (n : Int)
  | '-' :: rest => (digitsVal rest).map fun n => -(n : Int)
  | l => (digitsVal l).map fun n => (n : Int)

/-- Decimal rendering of a natural number (worker for `intToDigits`). -/
def natToDigits (n : Nat) : List Char :=
  (Nat.toDigits 10 n)

/-- Decimal rendering of an integer, as produced by `fmt.Sprintf` verbs. -/
def intToDigits (n : Int) : List Char :=
  if n < 0 then '-' :: natToDigits n.natAbs else natToDigits n.natAbs

/-! ## JSON values and maps (`datatypes.JSONMap` / `any`) -/

/-- Dynamic value as it appears in a decoded `datatypes.JSONMap` or behind
a Go `any`: JSON booleans, strings, numbers (`float64`; the numbers met in
this code are integral, embedded as `Int`), null/nil, arrays, objects, and
an opaque constructor for any other non-nil dynamic value (carrying its
`fmt` rendering). -/
inductive GoVal where
  | vBool (b : Bool)
  | vStr (s : List Char)
  | vNum (n : Int)
  | vNull
  | vArr (elems : List GoVal)
  | vObj (fields : List (List Char × GoVal))
  | vOther (repr : List Char)

/-- Association-list embedding of `datatypes.JSONMap`. -/
abbrev JSONMap := List (List Char × GoVal)

/-- Map lookup: Go indexing `m[k]` yields the zero value `nil` when the key
is absent, which is `GoVal.vNull` here. -/
def jmGet (m : JSONMap) (k : List Char) : GoVal :=
  match m.find? (fun kv => kv.1 == k) with
  | some kv => kv.2
  | none => GoVal.vNull

/-- Map insertion with overwrite, mirroring Go map assignment. -/
def jmPut (m : JSONMap) (k : List Char) (v : GoVal) : JSONMap :=
  if m.any (fun kv => kv.1 == k) then
    m.map fun kv => if kv.1 == k then (kv.1, v) else kv
  else
    m ++ [(k, v)]

/-! ## Notifier: truthy evaluation and tag matching
(src/internal/notifier/subscription.go) -/

/-- Embedding of `isTruthy` (subscription.go lines 108-119): booleans are
themselves, strings are truthy exactly when they trim-and-lowercase to
"true", numbers are truthy when non-zero, and every other value is truthy
unless it is nil. -/
def isTruthy : GoVal → Bool
  | GoVal.vBool b => b
  | GoVal.vStr s => trimSpaceL (toLowerL s) == "true".data
  | GoVal.vNum n => n != 0
  | GoVal.vNull => false
  | GoVal.vArr _ => true
  | GoVal.vObj _ => true
  | GoVal.vOther _ => true

/-- Embedding of `jobMatches` (subscription.go lines 90-106) on the
normalized-tag map of a job: every truthy-flagged subscription tag must be
truthy in the job's normalized tags.  `none` stands for a nil
`NormalizedTags` map. -/
def jobMatchesTags (normalizedTags : Option JSONMap) (tags : JSONMap) : Bool :=
  if tags.isEmpty then true
  else
    match normalizedTags with
    | none => false
    | some m => tags.all fun kv => !(isTruthy kv.2) || isTruthy (jmGet m kv.1)

/-! ## Data model (src/internal/model, part_003) -/

/-- Embedding of `model.Job`: the final, classified posting.  Timestamps
are abstract instants (`Int`); string fields are char lists. -/
structure Job where
  id : List Char
  title : List Char
  summary : List Char
  publishedAt : Int
  source : List Char
  url : List Char
  tags : JSONMap
  rawAttributes : JSONMap
  normalizedTags : JSONMap
  skillTags : JSONMap
  employmentType : List Char
  salaryRange : List Char
  roleCategory : List Char
  languageRequirement : List Char
  score : Int
  verdict : List Char
  createdAt : Int
  updatedAt : Int

/-- Zero value of `model.Job` (nil maps are embedded as empty ones; the
code under verification never distinguishes a nil map from an empty map on
these fields). -/
def Job.zero : Job :=
  ⟨[], [], [], 0, [], [], [], [], [], [], [], [], [], [], 0, [], 0, 0⟩

/-- Status strings of `model.RawJobStatus`. -/
def rawJobStatusPending : List Char := "pending".data

/-- Status string `model.RawJobStatusProcessed`. -/
def rawJobStatusProcessed : List Char := "processed".data

/-- Status string `model.RawJobStatusRejected`. -/
def rawJobStatusRejected : List Char := "rejected".data

/-- Embedding of `model.RawJob`: an unprocessed crawl result.  The
`llmResponse` field keeps Go's nil/non-nil map distinction because
`Store.UpdateRawJobStatus` branches on it. -/
structure RawJob where
  id : Nat
  source : List Char
  externalID : List Char
  title : List Char
  summary : List Char
  content : List Char
  url : List Char
  tags : JSONMap
  rawPayload : JSONMap
  publishedAt : Int
  status : List Char
  reason : List Char
  llmResponse : Option JSONMap
  createdAt : Int
  updatedAt : Int

/-! ## Crawl engine (src/unnamed/part_002, package fetcher) -/

/-- Published-time text of a post after the standard library has had its
say: either the empty string, a non-empty string that `time.Parse`
rejects, or a non-empty string parsing to the instant `t` (with `t = 0`
standing for Go's zero time). -/
inductive TimeText where
  | empty
  | bad (text : List Char)
  | good (text : List Char) (t : Int)
deriving DecidableEq

/-- Original string carried by a `TimeText`. -/
def TimeText.text : TimeText → List Char
  | TimeText.empty => []
  | TimeText.bad s => s
  | TimeText.good s _ => s

/-- Dynamic `id` field of a decoded post (`any` in Go): a JSON string, a
`json.Number`, a numeric `float64` (integral in practice, embedded as
`Int`), or any other value carried by its `fmt.Sprintf` rendering. -/
inductive GoID where
  | gstr (s : List Char)
  | gjson (s : List Char)
  | gfloat (n : Int)
  | gother (s : List Char)
deriving DecidableEq

/-- Embedding of `eleduckPost` as decoded from `__NEXT_DATA__`. -/
structure Post where
  id : GoID
  title : List Char
  fullTitle : List Char
  summary : List Char
  excerpt : List Char
  publishedAt : TimeText
  publishedAtAlt : TimeText
  tags : List (List Char)
  url : List Char
deriving DecidableEq

/-- Embedding of `normalizeID` (part_002 lines 350-361).  The `%.f`
rendering of an integral float has no decimal point, so the two
`TrimSuffix` calls are no-ops on it, exactly as in the source. -/
def normalizeID : GoID → List Char
  | GoID.gstr s => s
  | GoID.gjson s => s
  | GoID.gfloat n => trimSuffixL (trimSuffixL (intToDigits n) ".0".data) ".00".data
  | GoID.gother s => s

/-- Embedding of `pickPublishedAt`: the primary field unless it is the
empty string, otherwise the alternate field. -/
def pickPublishedAt (p : Post) : TimeText :=
  match p.publishedAt with
  | TimeText.empty => p.publishedAtAlt
  | other => other

/-- Embedding of `pickSummary`: summary, else excerpt, else full title,
else title. -/
def pickSummary (p : Post) : List Char :=
  if p.summary ≠ [] then p.summary
  else if p.excerpt ≠ [] then p.excerpt
  else if p.fullTitle ≠ [] then p.fullTitle
  else p.title

/-- Embedding of `hasRemoteTag`: some tag name contains the substring
"远程". -/
def hasRemoteTag (tags : List (List Char)) : Bool :=
  tags.any fun t => containsSub t "远程".data

/-- Embedding of `toTagMap`: every tag name maps to `true`. -/
def toTagMap (tags : List (List Char)) : JSONMap :=
  tags.foldl (fun m t => jmPut m t (GoVal.vBool true)) []

/-- Embedding of `toRawAttributes`: the audit snapshot kept with each
candidate. -/
def toRawAttributes (p : Post) : JSONMap :=
  [("id".data, match p.id with
      | GoID.gstr s => GoVal.vStr s
      | GoID.gjson s => GoVal.vOther s
      | GoID.gfloat n => GoVal.vNum n
      | GoID.gother s => GoVal.vOther s),
   ("title".data, GoVal.vStr p.title),
   ("full_title".data, GoVal.vStr p.fullTitle),
   ("summary".data, GoVal.vStr p.summary),
   ("excerpt".data, GoVal.vStr p.excerpt),
   ("publishedAt".data, GoVal.vStr p.publishedAt.text),
   ("published_at".data, GoVal.vStr p.publishedAtAlt.text),
   ("tags".data, GoVal.vArr (p.tags.map fun t => GoVal.vObj [("name".data, GoVal.vStr t)])),
   ("url".data, GoVal.vStr p.url),
   ("normalized_title".data, GoVal.vStr (pickSummary p))]

/-- Embedding of `EleduckFetcher.fullURL`: absolute URLs pass through,
empty ones fall back to the base, relative ones are appended to it. -/
def fullURL (baseURL raw : List Char) : List Char :=
  if raw = [] then baseURL
  else if startsWith "http://".data raw || startsWith "https://".data raw then raw
  else trimSuffixL baseURL "/".data ++ raw

/-- Candidate record built for an accepted post (part_002 lines 149-167). -/
def buildCandidate (baseURL : List Char) (p : Post) (jobID : List Char) (t : Int) : Job :=
  let jobTitle := if p.title = [] then p.fullTitle else p.title
  let jobURL := if p.url = [] && jobID ≠ [] then "/posts/".data ++ jobID else p.url
  { Job.zero with
      id := jobID
      title := jobTitle
      summary := pickSummary p
      publishedAt := t
      source := "eleduck".data
      url := fullURL baseURL jobURL
      tags := toTagMap p.tags
      rawAttributes := toRawAttributes p }

/-- Result of scanning the posts of a single page. -/
structure PageScan where
  seen : List (List Char)
  jobs : List Job
  stop : Bool

/-- Embedding of the per-post loop of `EleduckFetcher.Fetch` (part_002
lines 118-170): skip posts without a parseable non-zero timestamp, stop
the category at the first pre-cutoff post, skip non-remote posts,
deduplicate globally on non-empty normalized ids, and append the built
candidate. -/
def processPosts (baseURL : List Char) (cutoff : Int) :
    List Post → List (List Char) → List Job → PageScan
  | [], seen, acc => ⟨seen, acc, false⟩
  | p :: rest, seen, acc =>
    match pickPublishedAt p with
    | TimeText.empty => processPosts baseURL cutoff rest seen acc
    | TimeText.bad _ => processPosts baseURL cutoff rest seen acc
    | TimeText.good _ t =>
      if t = 0 then processPosts baseURL cutoff rest seen acc
      else if t < cutoff then ⟨seen, acc, true⟩
      else if !hasRemoteTag p.tags then processPosts baseURL cutoff rest seen acc
      else
        let jobID := normalizeID p.id
        if jobID ≠ [] ∧ jobID ∈ seen then
          processPosts baseURL cutoff rest seen acc
        else
          let seen' := if jobID ≠ [] then jobID :: seen else seen
          processPosts baseURL cutoff rest seen' (acc ++ [buildCandidate baseURL p jobID t])

/-- Crawl error type: the wrapped message text. -/
abbrev CrawlErr := List Char

/-- Page oracle: the composite of URL building, the HTTP round trip,
`extractNextData` and `parseEleduckPosts` for one category path and page
number — the external world of the crawl loop. -/
abbrev PageOracle := List Char → Nat → Except CrawlErr (List Post)

/-- State threaded through the crawl: the global dedup set, the
accumulated candidates, and the log of (category, page) pairs actually
requested. -/
structure CrawlSt where
  seen : List (List Char)
  jobs : List Job
  log : List (List Char × Nat)

/-- Embedding of the page loop of `EleduckFetcher.Fetch` for one category
(`for page := 1; page <= MaxPages; page++` with the `stopCategory`
break): `count` is the number of page numbers still allowed, starting at
`page`. -/
def crawlPages (oracle : PageOracle) (baseURL : List Char) (cutoff : Int)
    (cat : List Char) : Nat → Nat → CrawlSt → CrawlSt × Option CrawlErr
  | _, 0, st => (st, none)
  | page, count + 1, st =>
    match oracle cat page with
    | Except.error e => ({ st with log := st.log ++ [(cat, page)] }, some e)
    | Except.ok posts =>
      let r := processPosts baseURL cutoff posts st.seen st.jobs
      let st' : CrawlSt := ⟨r.seen, r.jobs, st.log ++ [(cat, page)]⟩
      if r.stop then (st', none) else crawlPages oracle baseURL cutoff cat (page + 1) count st'

/-- Embedding of the category loop of `EleduckFetcher.Fetch`: any page
error aborts the whole run. -/
def crawlCats (oracle : PageOracle) (baseURL : List Char) (cutoff : Int)
    (maxPages : Nat) : List (List Char) → CrawlSt → CrawlSt × Option CrawlErr
  | [], st => (st, none)
  | c :: rest, st =>
    match crawlPages oracle baseURL cutoff c 1 maxPages st with
    | (st', some e) => (st', some e)
    | (st', none) => crawlCats oracle baseURL cutoff maxPages rest st'

/-- Outcome of a crawl run: the result (`error` discards all partial
candidates, as in the source) together with the pages requested. -/
structure FetchOut where
  result : Except CrawlErr (List Job)
  log : List (List Char × Nat)

/-- Embedding of `EleduckFetcher.Fetch` (part_002 lines 67-182),
parameterized by the page oracle, the base URL, the cutoff instant
(`now - MaxAgeDays` in the source), the page limit, and the category
paths. -/
def eleduckFetch (oracle : PageOracle) (baseURL : List Char) (cutoff : Int)
    (maxPages : Nat) (cats : List (List Char)) : FetchOut :=
  match crawlCats oracle baseURL cutoff maxPages cats ⟨[], [], []⟩ with
  | (st, some e) => ⟨Except.error e, st.log⟩
  | (st, none) => ⟨Except.ok st.jobs, st.log⟩

/-- Derived predicate: a post that makes the category loop stop — its
resolved published text parses to a non-zero instant strictly before the
cutoff. -/
def stopPost (cutoff : Int) (p : Post) : Bool :=
  match pickPublishedAt p with
  | TimeText.good _ t => !(t == 0) && decide (t < cutoff)
  | _ => false

/-! ## Storage (src/unnamed/part_007, package storage)

The store is embedded as an in-memory list of rows; the SQLite layer's
semantic contract (unique keys, `ON CONFLICT DO UPDATE` on the listed
columns, `ORDER BY`/`LIMIT`/`OFFSET`) is modelled directly. -/

/-- Embedding of `storage.UpsertResult`. -/
structure UpsertResult where
  created : Nat
  newJobs : List Job

/-- Embedding of `storage.RawUpsertResult`. -/
structure RawUpsertResult where
  created : Nat
  newJobs : List RawJob

/-- Embedding of `storage.RawJobStatusUpdate`; `details = none` is a nil
`Details` map. -/
structure RawJobStatusUpdate where
  status : List Char
  reason : List Char
  details : Option JSONMap

/-- Natural key of a raw job: (source, external id). -/
def rawKey (r : RawJob) : List Char × List Char :=
  (r.source, r.externalID)

/-- The `Status == ""` default applied to each incoming raw job before the
write (part_007 lines 151-154). -/
def defaultPendingStatus (r : RawJob) : RawJob :=
  if r.status = [] then { r with status := rawJobStatusPending } else r

/-- New-row counting loop shared by both upserts in spirit: walk the
batch, count a row as new when its key is in neither the store nor the
keys already counted, growing the seen set as in the Go code
(`existingSet[id] = struct{}{}` after counting). -/
def countNewRaw (seen : List (List Char × List Char)) :
    List RawJob → Nat × List RawJob
  | [] => (0, [])
  | j :: rest =>
    if rawKey j ∈ seen then countNewRaw seen rest
    else
      let r := countNewRaw (rawKey j :: seen) rest
      (r.1 + 1, j :: r.2)

/-- Fresh autoincrement id for an inserted raw row. -/
def nextRawId (st : List RawJob) : Nat :=
  (st.map RawJob.id).foldr max 0 + 1

/-- On-conflict update of one stored raw row from an incoming row with the
same key: only the columns listed in the `OnConflict` clause (title,
summary, content, url, tags, raw_payload, published_at, updated_at) are
assigned. -/
def updVolRaw (now : Int) (j r : RawJob) : RawJob :=
  if rawKey r = rawKey j then
    { r with title := j.title, summary := j.summary, content := j.content,
             url := j.url, tags := j.tags, rawPayload := j.rawPayload,
             publishedAt := j.publishedAt, updatedAt := now }
  else r

/-- One row of the batched `Create` with `ON CONFLICT (source, external_id)
DO UPDATE`: conflicting keys update the volatile columns, fresh keys
insert a new row (GORM fills created_at/updated_at on insert). -/
def upsertOneRaw (now : Int) (st : List RawJob) (j : RawJob) : List RawJob :=
  if rawKey j ∈ st.map rawKey then st.map (updVolRaw now j)
  else st ++ [{ j with id := nextRawId st, createdAt := now, updatedAt := now }]

/-- The batched raw write, row by row. -/
def writeRaw (now : Int) (st : List RawJob) : List RawJob → List RawJob
  | [] => st
  | j :: rest => writeRaw now (upsertOneRaw now st j) rest

/-- Embedding of `Store.UpsertRawJobs` (part_007 lines 144-192): default
the status, collect the already-existing keys among the batch keys, count
and collect the genuinely new rows, then write the batch with the
on-conflict clause.  `now` abstracts the wall-clock instant GORM stamps
into created_at/updated_at. -/
def upsertRawJobs (st : List RawJob) (now : Int) (batch : List RawJob) :
    List RawJob × RawUpsertResult :=
  if batch.isEmpty then (st, ⟨0, []⟩)
  else
    let batch' := batch.map defaultPendingStatus
    let batchKeys := batch'.map rawKey
    let existing := (st.map rawKey).filter fun k => k ∈ batchKeys
    let r := countNewRaw existing batch'
    (writeRaw now st batch', ⟨r.1, r.2⟩)

/-- New-row counting loop of `Store.UpsertJobs` (part_007 lines 107-113),
keyed by the job id, with the same grow-the-seen-set guard against
duplicate ids inside one batch. -/
def countNewJobs (seen : List (List Char)) : List Job → Nat × List Job
  | [] => (0, [])
  | j :: rest =>
    if j.id ∈ seen then countNewJobs seen rest
    else
      let r := countNewJobs (j.id :: seen) rest
      (r.1 + 1, j :: r.2)

/-- On-conflict update of one stored job row: every descriptive and
classification column is assigned, never the id or created_at. -/
def updVolJob (now : Int) (j r : Job) : Job :=
  if r.id = j.id then
    { r with title := j.title, summary := j.summary,
             publishedAt := j.publishedAt, source := j.source, url := j.url,
             tags := j.tags, rawAttributes := j.rawAttributes,
             normalizedTags := j.normalizedTags, skillTags := j.skillTags,
             employmentType := j.employmentType, salaryRange := j.salaryRange,
             roleCategory := j.roleCategory,
             languageRequirement := j.languageRequirement, score := j.score,
             verdict := j.verdict, updatedAt := now }
  else r

/-- One row of the batched job `Create` with `ON CONFLICT (id) DO UPDATE`. -/
def upsertOneJob (now : Int) (st : List Job) (j : Job) : List Job :=
  if j.id ∈ st.map Job.id then st.map (updVolJob now j)
  else st ++ [{ j with createdAt := now, updatedAt := now }]

/-- The batched job write, row by row. -/
def writeJobs (now : Int) (st : List Job) : List Job → List Job
  | [] => st
  | j :: rest => writeJobs now (upsertOneJob now st j) rest

/-- Embedding of `Store.UpsertJobs` (part_007 lines 86-141). -/
def upsertJobs (st : List Job) (now : Int) (batch : List Job) :
    List Job × UpsertResult :=
  if batch.isEmpty then (st, ⟨0, []⟩)
  else
    let ids := batch.map Job.id
    let existing := (st.map Job.id).filter fun k => k ∈ ids
    let r := countNewJobs existing batch
    (writeJobs now st batch, ⟨r.1, r.2⟩)

/-- SQLite `json_extract(normalized_tags, '$."tag"') = 1`: JSON `true`
extracts as integer 1; a missing key extracts as NULL, which never equals
1. -/
def sqlJsonEqOne (m : JSONMap) (tag : List Char) : Bool :=
  match jmGet m tag with
  | GoVal.vBool b => b
  | GoVal.vNum n => n == 1
  | _ => false

/-- Embedding of `applyJobFilters` (part_007 lines 298-310): one
`json_extract = 1` conjunct per non-empty requested tag. -/
def applyJobFilters (st : List Job) (tags : List (List Char)) : List Job :=
  if tags.isEmpty then st
  else st.filter fun j => tags.all fun t => t.isEmpty || sqlJsonEqOne j.normalizedTags t

/-- Descending insertion by published time (model of `ORDER BY
published_at DESC`; the rows of interest have distinct published times,
so tie order is immaterial). -/
def insertDescJob (j : Job) : List Job → List Job
  | [] => [j]
  | x :: rest =>
    if x.publishedAt < j.publishedAt then j :: x :: rest else x :: insertDescJob j rest

/-- Sort by published time descending. -/
def sortByPublishedDesc (l : List Job) : List Job :=
  l.foldr insertDescJob []

/-- Embedding of `Store.ListJobs` (part_007 lines 195-214): clamp a
negative offset to zero, order by published time descending, apply the
offset when positive and the limit when positive. -/
def listJobs (st : List Job) (limit offset : Int) (tags : List (List Char)) : List Job :=
  let off := if offset < 0 then 0 else offset
  let sorted := sortByPublishedDesc (applyJobFilters st tags)
  let afterOff := if off > 0 then sorted.drop off.toNat else sorted
  if limit > 0 then afterOff.take limit.toNat else afterOff

/-- Embedding of `Store.UpdateRawJobStatus` (part_007 lines 248-267): an
empty status defaults to processed; the llm_response column is part of the
update map only when `Details` is non-nil; zero affected rows is an
error. -/
def updateRawJobStatus (st : List RawJob) (now : Int) (id : Nat)
    (upd : RawJobStatusUpdate) : Except (List Char) (List RawJob) :=
  let status := if upd.status = [] then rawJobStatusProcessed else upd.status
  let st' := st.map fun r =>
    if r.id = id then
      { r with status := status, reason := upd.reason,
               llmResponse := match upd.details with
                 | some m => some m
                 | none => r.llmResponse,
               updatedAt := now }
    else r
  if st.any fun r => r.id == id then Except.ok st'
  else Except.error "update raw job status: id not found".data

/-! ## Classifier (src/unnamed/part_005, package processor) -/

/-- Embedding of `ResultOutcome`. -/
inductive Outcome where
  | accepted
  | rejected
deriving DecidableEq

/-- Embedding of `processor.Result`; `trace = none` is a nil Trace map. -/
structure ProcResult where
  outcome : Outcome
  job : Option Job
  reason : List Char
  trace : Option JSONMap

/-- The slice of `processor.Config` that `Process` reads (the remaining
fields configure other components and the completion-service transport). -/
structure ProcConfig where
  keywords : List (List Char)
  promptTemplate : List Char
  tagCandidates : List (List Char)

/-- Embedding of `llmClassification`, the decoded completion-service
answer. -/
structure LLMClassification where
  isRemote : Bool
  summary : List Char
  verdict : List Char
  employmentType : List Char
  salaryRange : List Char
  roleCategory : List Char
  languageRequirement : List Char
  score : Int
  tags : List (List Char)
  skillTags : List (List Char)

/-- String-valued association update with Go map overwrite semantics
(worker for `buildTagLookup`). -/
def slPut (m : List (List Char × List Char)) (k v : List Char) :
    List (List Char × List Char) :=
  if m.any (fun kv => kv.1 == k) then
    m.map fun kv => if kv.1 == k then (kv.1, v) else kv
  else m ++ [(k, v)]

/-- Association lookup for `tagLookup`. -/
def slGet? (m : List (List Char × List Char)) (k : List Char) : Option (List Char) :=
  (m.find? fun kv => kv.1 == k).map Prod.snd

/-- Embedding of the `tagLookup` map built in `processor.New`:
lower-cased trimmed candidate → canonical trimmed candidate. -/
def buildTagLookup (cands : List (List Char)) : List (List Char × List Char) :=
  cands.foldl (fun m tag =>
    let trimmed := trimSpaceL tag
    if trimmed ≠ [] then slPut m (toLowerL trimmed) trimmed else m) []

/-- Embedding of `Processor.containsKeyword`: an empty keyword list
accepts everything; otherwise some trimmed non-empty keyword must occur
case-insensitively in the text. -/
def containsKeyword (cfg : ProcConfig) (text : List Char) : Bool :=
  if cfg.keywords.isEmpty then true
  else
    let lower := toLowerL text
    cfg.keywords.any fun kw =>
      let kw' := trimSpaceL kw
      !kw'.isEmpty && containsSub lower (toLowerL kw')

/-- The Go `defaultPrompt` constant (a backquoted string, so its inner
backslash-n sequences are the two characters backslash and n). -/
def defaultPrompt : List Char :=
  "请作为资深 HR，阅读以下招聘文本并输出结构化判断：\\n\x7b\x7bTEXT\x7d\x7d\\n可选岗位标签: \x7b\x7bTAGS\x7d\x7d。需要判断岗位是否为远程，并对岗位进行简要总结与打标签。".data

/-- The fixed JSON-schema instruction appended by `buildPrompt` (also a
backquoted Go string). -/
def promptInstructions : List Char :=
  "\\n请严格输出 JSON，对象字段:\x7b\"is_remote\":bool,\"summary\":string,\"verdict\":string,\"employment_type\":string,\"salary_range\":string,\"role_category\":string,\"language_requirement\":string,\"score\":int,\"tags\":string数组,\"skill_tags\":string数组\x7d.".data

/-- Join with a separator (char-list form of `strings.Join`). -/
def joinSep (sep : List Char) : List (List Char) → List Char
  | [] => []
  | [x] => x
  | x :: rest => x ++ sep ++ joinSep sep rest

/-- Embedding of `Processor.buildPrompt` (part_005 lines 123-134); the
unused `raw` parameter of the Go method is dropped. -/
def buildPrompt (cfg : ProcConfig) (text : List Char) : List Char :=
  let template :=
    if trimSpaceL cfg.promptTemplate = [] then defaultPrompt
    else trimSpaceL cfg.promptTemplate
  let tagList := joinSep ", ".data cfg.tagCandidates
  let prompt := replaceAllL template "\x7b\x7bTEXT\x7d\x7d".data text
  let prompt := replaceAllL prompt "\x7b\x7bTAGS\x7d\x7d".data tagList
  prompt ++ promptInstructions

/-- Embedding of `clampScore`. -/
def clampScore (score : Int) : Int :=
  if score < 0 then 0 else if score > 5 then 5 else score

/-- Embedding of `Processor.buildJob` (part_005 lines 136-187): normalized
tags keep only whitelist matches (case-insensitive, canonical spelling),
skill tags are trimmed but unfiltered, the score is clamped to [0,5], and
an empty external id falls back to "source-rawid". -/
def buildJob (cfg : ProcConfig) (raw : RawJob) (payload : LLMClassification) : Job :=
  let lookup := buildTagLookup cfg.tagCandidates
  let id0 := raw.externalID
  let id1 := if id0 = [] then raw.source ++ "-".data ++ natToDigits raw.id else id0
  let summary0 := trimSpaceL payload.summary
  let summary1 := if summary0 = [] then raw.summary else summary0
  let normTags := payload.tags.foldl (fun acc tag =>
    match slGet? lookup (toLowerL (trimSpaceL tag)) with
    | some canonical => jmPut acc canonical (GoVal.vBool true)
    | none => acc) []
  let skill := payload.skillTags.foldl (fun acc tag =>
    let trimmed := trimSpaceL tag
    if trimmed = [] then acc else jmPut acc trimmed (GoVal.vBool true)) []
  { Job.zero with
      id := id1
      title := trimSpaceL raw.title
      summary := summary1
      source := raw.source
      url := raw.url
      tags := raw.tags
      rawAttributes := raw.rawPayload
      publishedAt := raw.publishedAt
      employmentType := payload.employmentType
      salaryRange := payload.salaryRange
      roleCategory := payload.roleCategory
      languageRequirement := payload.languageRequirement
      score := clampScore payload.score
      verdict := payload.verdict
      normalizedTags := normTags
      skillTags := skill }

/-- Embedding of `Processor.Process` (part_005 lines 75-104).  The
completion service is the oracle `llm`; the standard library's JSON
decode of its answer is the oracle `parseLLM` (`none` = unmarshal error).
Hard errors (`Except.error`) are the transport and parse failures; a
rejection is a normal `ok` outcome. -/
def process (cfg : ProcConfig) (llm : List Char → Except (List Char) (List Char))
    (parseLLM : List Char → Option LLMClassification) (raw : RawJob) :
    Except (List Char) ProcResult :=
  let text := trimSpaceL (raw.title ++ "\n".data ++ raw.summary ++ "\n".data ++ raw.content)
  if !containsKeyword cfg text then
    Except.ok ⟨Outcome.rejected, none, "missing required keywords".data, none⟩
  else
    let prompt := buildPrompt cfg text
    match llm prompt with
    | Except.error e => Except.error ("llm complete: ".data ++ e)
    | Except.ok respText =>
      let trace : JSONMap :=
        [("prompt".data, GoVal.vStr prompt), ("llm_response".data, GoVal.vStr respText)]
      match parseLLM respText with
      | none => Except.error "parse llm response".data
      | some payload =>
        if !payload.isRemote then
          let reason := if payload.verdict = [] then "llm rejected".data else payload.verdict
          Except.ok ⟨Outcome.rejected, none, reason, some trace⟩
        else
          Except.ok ⟨Outcome.accepted, some (buildJob cfg raw payload), [], some trace⟩

/-! ## Scheduler cycle (src/unnamed/part_006, `Scheduler.runOnce`)

The dependencies of a cycle (fetcher, store, processor, notifier) are
passed as oracles; `running` is the atomic single-flight flag, whose
`Swap(true)` on entry and deferred `Store(false)` are made explicit.  The
per-cycle timeout context does not change the sequential data flow and is
not modelled.  A `CallTrace` counts how often each dependency is
invoked. -/

/-- Oracles for one scheduler cycle, plus the configured batch size. -/
structure SchedEnv where
  fetchOp : Except (List Char) (List Job)
  upsertRawOp : List RawJob → Except (List Char) RawUpsertResult
  listRawOp : List Char → Nat → Except (List Char) (List RawJob)
  processOp : RawJob → Except (List Char) ProcResult
  updateStatusOp : Nat → RawJobStatusUpdate → Except (List Char) Unit
  upsertJobsOp : List Job → Except (List Char) UpsertResult
  notifOp : Option (List Job → Option (List Char))
  batchSize : Nat

/-- Invocation counts of the cycle's dependencies. -/
structure CallTrace where
  fetchCalls : Nat
  upsertRawCalls : Nat
  listRawCalls : Nat
  processCalls : Nat
  updateStatusCalls : Nat
  upsertJobsCalls : Nat
  notifyCalls : Nat
deriving DecidableEq

/-- All-zero trace: no dependency was invoked. -/
def CallTrace.zero : CallTrace := ⟨0, 0, 0, 0, 0, 0, 0⟩

/-- The raw-job row built from a fetched candidate (part_006 lines
151-163): content, status, reason and the trace stay at their zero
values. -/
def toRawJob (j : Job) : RawJob :=
  ⟨0, j.source, j.id, j.title, j.summary, [], j.url, j.tags, j.rawAttributes,
   j.publishedAt, [], [], none, 0, 0⟩

/-- The classify-and-update loop over the pending raw jobs (part_006 lines
173-189): build the status update (rejected with reason and trace by
default, processed with cleared reason when accepted with a job), persist
it, and accumulate the accepted jobs; any error aborts the cycle. -/
def processLoop (env : SchedEnv) :
    List RawJob → List Job → CallTrace →
    Except (List Char × CallTrace) (List Job × CallTrace)
  | [], processed, tr => Except.ok (processed, tr)
  | raw :: rest, processed, tr =>
    let tr1 := { tr with processCalls := tr.processCalls + 1 }
    match env.processOp raw with
    | Except.error e =>
      Except.error ("process raw job ".data ++ natToDigits raw.id ++ ": ".data ++ e, tr1)
    | Except.ok res =>
      let step :=
        match res.outcome, res.job with
        | Outcome.accepted, some j =>
          (RawJobStatusUpdate.mk rawJobStatusProcessed [] res.trace, processed ++ [j])
        | _, _ =>
          (RawJobStatusUpdate.mk rawJobStatusRejected res.reason res.trace, processed)
      let tr2 := { tr1 with updateStatusCalls := tr1.updateStatusCalls + 1 }
      match env.updateStatusOp raw.id step.1 with
      | Except.error e => Except.error ("update raw job status: ".data ++ e, tr2)
      | Except.ok _ => processLoop env rest step.2 tr2

/-- The body of a cycle once the single-flight flag has been acquired
(part_006 lines 143-207): fetch, upsert raw, list pending, classify each,
upsert accepted, notify when genuinely new jobs exist.  Returns the
(created count, error) pair exactly as the Go function does — a notify
failure still reports the created count. -/
def runOnceBody (env : SchedEnv) : (Nat × Option (List Char)) × CallTrace :=
  let tr0 := { CallTrace.zero with fetchCalls := 1 }
  match env.fetchOp with
  | Except.error e => ((0, some ("fetch jobs: ".data ++ e)), tr0)
  | Except.ok jobs =>
    let rawJobs := jobs.map toRawJob
    let tr1 := { tr0 with upsertRawCalls := 1 }
    match env.upsertRawOp rawJobs with
    | Except.error e => ((0, some ("upsert raw jobs: ".data ++ e)), tr1)
    | Except.ok _ =>
      let tr2 := { tr1 with listRawCalls := 1 }
      match env.listRawOp rawJobStatusPending env.batchSize with
      | Except.error e => ((0, some ("list raw jobs: ".data ++ e)), tr2)
      | Except.ok pending =>
        match processLoop env pending [] tr2 with
        | Except.error et => ((0, some et.1), et.2)
        | Except.ok pt =>
          if pt.1.isEmpty then ((0, none), pt.2)
          else
            let tr4 := { pt.2 with upsertJobsCalls := pt.2.upsertJobsCalls + 1 }
            match env.upsertJobsOp pt.1 with
            | Except.error e => ((0, some ("upsert jobs: ".data ++ e)), tr4)
            | Except.ok res =>
              match env.notifOp with
              | some f =>
                if res.newJobs.isEmpty then ((res.created, none), tr4)
                else
                  let tr5 := { tr4 with notifyCalls := tr4.notifyCalls + 1 }
                  match f res.newJobs with
                  | some e => ((res.created, some ("notify: ".data ++ e)), tr5)
                  | none => ((res.created, none), tr5)
              | none => ((res.created, none), tr4)

/-- Embedding of `Scheduler.runOnce` (part_006 lines 137-207).  The input
`running` is the value of the atomic flag when `Swap(true)` executes: if
it was already set, the call returns (0, nil) immediately, without
touching any dependency and leaving the flag to its owner; otherwise the
body runs and the deferred `Store(false)` clears the flag on every exit
path.  The returned triple is (result pair, flag on exit, trace). -/
def runOnce (env : SchedEnv) (running : Bool) :
    (Nat × Option (List Char)) × Bool × CallTrace :=
  if running then ((0, none), true, CallTrace.zero)
  else
    let r := runOnceBody env
    (r.1, false, r.2)

/-! ## Cron schedule (src/unnamed/part_006 lines 268-377)

Go's `time.Time` is embedded as a civil UTC datetime; `Weekday` follows
the proleptic Gregorian calendar with Sunday = 0, as in Go. -/

/-- Civil UTC instant at second precision (the cron code only ever reads
minute, hour, day, month and weekday; seconds exist only so that
`Truncate(time.Minute)` is represented faithfully). -/
structure DateTime where
  year : Nat
  month : Nat
  day : Nat
  hour : Nat
  minute : Nat
  sec : Nat
deriving DecidableEq

/-- Gregorian leap-year rule. -/
def isLeapYear (y : Nat) : Bool :=
  (y % 4 == 0 && y % 100 != 0) || y % 400 == 0

/-- Days in a month of a given year. -/
def daysInMonth (y m : Nat) : Nat :=
  if m = 2 then (if isLeapYear y then 29 else 28)
  else if m = 4 ∨ m = 6 ∨ m = 9 ∨ m = 11 then 30
  else 31

/-- Days in all years strictly before `y` (counting from year 1). -/
def daysBeforeYear (y : Nat) : Nat :=
  365 * (y - 1) + (y - 1) / 4 + (y - 1) / 400 - (y - 1) / 100

/-- Days in all months of year `y` strictly before month `m`. -/
def daysBeforeMonth (y m : Nat) : Nat :=
  ((List.range' 1 (m - 1)).map (daysInMonth y)).sum

/-- Absolute day index of a civil date (0001-01-01 is day 0, a Monday). -/
def daysFromCivil (dt : DateTime) : Nat :=
  daysBeforeYear dt.year + daysBeforeMonth dt.year dt.month + (dt.day - 1)

/-- Go weekday number (Sunday = 0). -/
def weekdayOf (dt : DateTime) : Nat :=
  (daysFromCivil dt + 1) % 7

/-- Advance a civil instant by one minute with calendar rollover
(behaviour of `t.Add(time.Minute)` in UTC). -/
def addOneMinute (dt : DateTime) : DateTime :=
  if dt.minute + 1 < 60 then { dt with minute := dt.minute + 1 }
  else if dt.hour + 1 < 24 then { dt with minute := 0, hour := dt.hour + 1 }
  else if dt.day + 1 ≤ daysInMonth dt.year dt.month then
    { dt with minute := 0, hour := 0, day := dt.day + 1 }
  else if dt.month + 1 ≤ 12 then
    { dt with minute := 0, hour := 0, day := 1, month := dt.month + 1 }
  else { dt with minute := 0, hour := 0, day := 1, month := 1, year := dt.year + 1 }

/-- Behaviour of `t.Truncate(time.Minute)` on a civil instant. -/
def truncMinute (dt : DateTime) : DateTime :=
  { dt with sec := 0 }

/-- Embedding of `cronSchedule`: the five accepted-value sets, as lists
whose membership matches the Go `map[int]struct{}` sets. -/
structure CronSchedule where
  minutes : List Int
  hours : List Int
  doms : List Int
  months : List Int
  dows : List Int
deriving DecidableEq

/-- Fuel-driven worker for `rangeStep`. -/
def rangeStepAux (mx step : Int) : Nat → Int → List Int
  | 0, _ => []
  | fuel + 1, i => if i ≤ mx then i :: rangeStepAux mx step fuel (i + step) else []

/-- Values of the Go loop `for i := min; i <= max; i += step` (callers
always pass a positive step, so the fuel bound is never reached). -/
def rangeStep (mn mx step : Int) : List Int :=
  rangeStepAux mx step ((mx - mn).toNat + 1) mn

/-- Worker over the comma-separated parts of one cron field. -/
def parseFieldParts (mn mx : Int) : List (List Char) → List Int → Option (List Int)
  | [], acc => if acc.isEmpty then none else some acc
  | part :: rest, acc =>
    let part := trimSpaceL part
    if part = [] then parseFieldParts mn mx rest acc
    else if part = "*".data then parseFieldParts mn mx rest (acc ++ rangeStep mn mx 1)
    else if startsWith "*/".data part then
      match atoiL (part.drop 2) with
      | some step =>
        if step ≤ 0 then none else parseFieldParts mn mx rest (acc ++ rangeStep mn mx step)
      | none => none
    else
      match atoiL part with
      | some v => if v < mn ∨ v > mx then none else parseFieldParts mn mx rest (acc ++ [v])
      | none => none

/-- Embedding of `parseCronField` (part_006 lines 306-343): wildcard, step
wildcard, comma lists and explicit integers, each validated against the
field's legal range; an empty result set is an error.  The Go map of
accepted values is represented by the (possibly repetitive) list of parsed
values — membership and emptiness coincide. -/
def parseCronField (expr : List Char) (mn mx : Int) : Option (List Int) :=
  let expr := trimSpaceL expr
  if expr = [] then none else parseFieldParts mn mx (splitOnCharL ',' expr) []

/-- Embedding of `parseCronSpec` (part_006 lines 276-304): exactly five
whitespace-separated fields with ranges 0-59, 0-23, 1-31, 1-12 and 0-6. -/
def parseCronSpec (spec : List Char) : Option CronSchedule :=
  match fieldsL spec with
  | [f1, f2, f3, f4, f5] =>
    match parseCronField f1 0 59, parseCronField f2 0 23, parseCronField f3 1 31,
          parseCronField f4 1 12, parseCronField f5 0 6 with
    | some mins, some hrs, some dms, some mons, some dws =>
      some ⟨mins, hrs, dms, mons, dws⟩
    | _, _, _, _, _ => none
  | _ => none

/-- Embedding of `cronSchedule.matches` (part_006 lines 345-366): all
five fields must accept the instant (the Go body's `if dow == 0 { dow = 0 }`
is a no-op and is omitted). -/
def cronMatches (c : CronSchedule) (t : DateTime) : Bool :=
  c.minutes.contains (t.minute : Int) && c.hours.contains (t.hour : Int) &&
  c.months.contains (t.month : Int) && c.doms.contains (t.day : Int) &&
  c.dows.contains (weekdayOf t : Int)

/-- Fuel-driven minute scan (the loop body of `cronSchedule.next`). -/
def cronNextAux (c : CronSchedule) : Nat → DateTime → Option DateTime
  | 0, _ => none
  | fuel + 1, t => if cronMatches c t then some t else cronNextAux c fuel (addOneMinute t)

/-- Embedding of `cronSchedule.next` (part_006 lines 368-377): scan
forward minute by minute from the minute after `after`, bounded to one
year (525600 minutes); no match within the bound is an error (`none`). -/
def cronNext (c : CronSchedule) (after : DateTime) : Option DateTime :=
  cronNextAux c 525600 (addOneMinute (truncMinute after))

/-! ## Derived predicates used by the statements -/

/-- Non-empty normalized ids of a candidate list. -/
def neIds (l : List Job) : List (List Char) :=
  (l.map Job.id).filter fun s => !s.isEmpty

/-- Page `q` of category `cat` is clean: it is served successfully and
contains no post that would stop the category (no parseable non-zero
published time strictly before the cutoff). -/
def cleanPage (oracle : PageOracle) (cutoff : Int) (cat : List Char) (q : Nat) : Prop :=
  ∃ posts, oracle cat q = Except.ok posts ∧ ∀ p ∈ posts, stopPost cutoff p = false

/-- Every page request in the log is preceded, within its category, only
by clean pages: paging stopped no later than the first stopping post. -/
def goodLog (oracle : PageOracle) (cutoff : Int) (log : List (List Char × Nat)) : Prop :=
  ∀ cat p, (cat, p) ∈ log → ∀ q, 1 ≤ q → q < p → cleanPage oracle cutoff cat q

/-- Non-volatile projection of a stored raw row: everything the
on-conflict clause of `UpsertRawJobs` does not assign (row id, natural
key, status, reason, classifier trace, creation time). -/
def projRaw (r : RawJob) :
    Nat × (List Char × List Char) × List Char × List Char × Option JSONMap × Int :=
  (r.id, rawKey r, r.status, r.reason, r.llmResponse, r.createdAt)

/-! ## Concrete instances used by witnesses and counterexamples -/

/-- Base URL used by the concrete crawl runs. -/
def base0 : List Char := "https://e.com".data

/-- Category path used by the concrete crawl runs. -/
def catC : List Char := "c".data

/-- Fresh remote post (published at instant 20) with id "a1". -/
def post1 : Post :=
  ⟨GoID.gstr "a1".data, "T1".data, [], [], [], TimeText.good "t20".data 20,
   TimeText.empty, ["远程".data], []⟩

/-- Stale remote post (published at instant 5) with id "a2". -/
def post2 : Post :=
  ⟨GoID.gstr "a2".data, "T2".data, [], [], [], TimeText.good "t5".data 5,
   TimeText.empty, ["远程".data], []⟩

/-- Site oracle: page 1 carries the fresh post, page 2 the stale one,
later pages are empty. -/
def oracle0 : PageOracle := fun _ pg =>
  if pg = 1 then Except.ok [post1] else if pg = 2 then Except.ok [post2] else Except.ok []

/-- Fresh remote post whose id normalizes to the empty string. -/
def postE1 : Post :=
  ⟨GoID.gstr [], "T1".data, [], [], [], TimeText.good "t20".data 20,
   TimeText.empty, ["远程".data], []⟩

/-- Second fresh remote post whose id also normalizes to the empty
string. -/
def postE2 : Post :=
  ⟨GoID.gstr [], "T2".data, [], [], [], TimeText.good "t21".data 21,
   TimeText.empty, ["远程".data], []⟩

/-- Site oracle whose first page carries the two empty-id posts. -/
def oracleE : PageOracle := fun _ pg =>
  if pg = 1 then Except.ok [postE1, postE2] else Except.ok []

/-- Classifier configuration requiring the keyword "golang". -/
def cfgK : ProcConfig := ⟨["golang".data], [], []⟩

/-- Raw job whose text does not contain "golang". -/
def rawK : RawJob :=
  ⟨7, "eleduck".data, "x1".data, "Rust dev".data, "systems".data, "no match".data,
   [], [], [], 3, rawJobStatusPending, [], none, 0, 0⟩

/-- Classifier configuration with no keywords and no template. -/
def cfg0 : ProcConfig := ⟨[], [], []⟩

/-- Completion-service oracle answering a fixed text. -/
def llm0 : List Char → Except (List Char) (List Char) := fun _ => Except.ok "ans0".data

/-- Decoded answer: not remote, with verdict "v0". -/
def payload0 : LLMClassification :=
  ⟨false, [], "v0".data, [], [], [], [], 0, [], []⟩

/-- JSON-decode oracle returning `payload0` for every answer. -/
def parseLLM0 : List Char → Option LLMClassification := fun _ => some payload0

/-- Newer final job (published at 2). -/
def jobA : Job := { Job.zero with id := "a".data, publishedAt := 2 }

/-- Older final job (published at 1). -/
def jobB : Job := { Job.zero with id := "b".data, publishedAt := 1 }

/-- Final job used twice in one batch under the same id. -/
def jobDup : Job := { Job.zero with id := "d".data, publishedAt := 9 }

/-- Raw job used twice in one batch under the same (source, external id)
key. -/
def rawDup : RawJob :=
  ⟨0, "eleduck".data, "e9".data, "T".data, [], [], [], [], [], 9, [], [], none, 0, 0⟩

/-- Stored raw row with id 1, pending, carrying no classifier trace. -/
def rawStored : RawJob :=
  ⟨1, "eleduck".data, "s1".data, "T".data, [], [], [], [], [], 4,
   rawJobStatusPending, [], none, 0, 0⟩

/-- Status update with an empty status and a nil details map. -/
def updEmpty : RawJobStatusUpdate := ⟨[], "r0".data, none⟩

/-! ## Helper lemmas -/

theorem dropWhile_append_all {p : Char → Bool} :
    ∀ (a b : List Char), (∀ c ∈ a, p c = true) →
    List.dropWhile p (a ++ b) = List.dropWhile p b
  | [], _, _ => rfl
  | c :: a, b, h => by
    have hc : p c = true := h c (List.mem_cons_self c a)
    rw [List.cons_append, List.dropWhile_cons_of_pos hc]
    exact dropWhile_append_all a b fun x hx => h x (List.mem_cons_of_mem c hx)

theorem toLower_of_space {c : Char} (h : isSpaceChar c = true) : Char.toLower c = c := by
  simp only [isSpaceChar, Bool.or_eq_true, beq_iff_eq] at h
  rcases h with ((((((h | h) | h) | h) | h) | h) | h) | h <;> subst h <;> decide

theorem space_toLower_space {c : Char} (h : isSpaceChar c = true) :
    isSpaceChar (Char.toLower c) = true := by
  rw [toLower_of_space h]; exact h

/-! ## Claim theorems -/

/-- C2: if the scheduler's running flag is already set, `runOnce` returns
immediately with created count zero and no error and invokes neither the
fetcher, the store, nor the notifier (its call trace is all zeroes),
leaving the flag to the in-flight cycle that owns it; and every call that
acquires the flag exits with the flag cleared — whether its result pair
carries an error or not — so a subsequent trigger is not blocked by a
previous failed cycle. -/
theorem runOnce_single_flight_guard (env : SchedEnv) :
    runOnce env true = ((0, none), true, CallTrace.zero) ∧
    (runOnce env false).2.1 = false :=
  ⟨rfl, rfl⟩

/-- C4: parsing the cron expression "0 */2 * * *" and computing the next
fire time after 2024-06-10T01:15:00Z yields exactly 2024-06-10T02:00:00Z,
and the five field sets all match at that instant (the scan stops at the
first such minute). -/
theorem cron_next_fire_two_hourly :
    ((parseCronSpec "0 */2 * * *".data).bind fun c =>
      cronNext c ⟨2024, 6, 10, 1, 15, 0⟩) = some ⟨2024, 6, 10, 2, 0, 0⟩ ∧
    ((parseCronSpec "0 */2 * * *".data).map fun c =>
      cronMatches c ⟨2024, 6, 10, 2, 0, 0⟩) = some true := by
  decide

/-- C6: truthy evaluation returns true for the boolean true, for the
string "true" in any letter case with surrounding whitespace, for every
non-zero number, and for every other non-nil value (arrays, objects, and
opaque dynamic values). -/
theorem isTruthy_truthy_values :
    (isTruthy (GoVal.vBool true) = true) ∧
    (∀ ws1 core ws2 : List Char,
       (∀ c ∈ ws1, isSpaceChar c = true) → (∀ c ∈ ws2, isSpaceChar c = true) →
       toLowerL core = "true".data →
       isTruthy (GoVal.vStr (ws1 ++ core ++ ws2)) = true) ∧
    (∀ n : Int, n ≠ 0 → isTruthy (GoVal.vNum n) = true) ∧
    (∀ l, isTruthy (GoVal.vArr l) = true) ∧
    (∀ m, isTruthy (GoVal.vObj m) = true) ∧
    (∀ s, isTruthy (GoVal.vOther s) = true) := by
  refine ⟨rfl, ?_, ?_, fun _ => rfl, fun _ => rfl, fun _ => rfl⟩
  · intro ws1 core ws2 h1 h2 hcore
    have h1L : ∀ c ∈ toLowerL ws1, isSpaceChar c = true := by
      intro c hc
      rcases List.mem_map.mp hc with ⟨c0, hc0, rfl⟩
      exact space_toLower_space (h1 c0 hc0)
    have h2L : ∀ c ∈ (toLowerL ws2).reverse, isSpaceChar c = true := by
      intro c hc
      rcases List.mem_map.mp (List.mem_reverse.mp hc) with ⟨c0, hc0, rfl⟩
      exact space_toLower_space (h2 c0 hc0)
    simp only [toLowerL] at hcore
    have hmap : toLowerL (ws1 ++ core ++ ws2) =
        toLowerL ws1 ++ ("true".data ++ toLowerL ws2) := by
      simp only [toLowerL, List.map_append, List.append_assoc, hcore]
    have hdrop : (toLowerL (ws1 ++ core ++ ws2)).dropWhile isSpaceChar =
        "true".data ++ toLowerL ws2 := by
      rw [hmap, dropWhile_append_all _ _ h1L]
      rfl
    have hrev : ("true".data ++ toLowerL ws2).reverse =
        (toLowerL ws2).reverse ++ ['e', 'u', 'r', 't'] := by
      simp [List.reverse_append]
    have hend : trimSpaceL (toLowerL (ws1 ++ core ++ ws2)) = "true".data := by
      rw [trimSpaceL, hdrop, dropWhileEnd, hrev, dropWhile_append_all _ _ h2L]
      rfl
    show (trimSpaceL (toLowerL (ws1 ++ core ++ ws2)) == "true".data) = true
    rw [hend]
    simp
  · intro n hn
    simp [isTruthy, bne_iff_ne, hn]

/-- Closed witness for C6: a cased, whitespace-surrounded "TRUE" string
and a non-zero number evaluate truthy. -/
theorem isTruthy_truthy_values_witness :
    ((∀ c ∈ [' ', ' '], isSpaceChar c = true) ∧ (∀ c ∈ [' '], isSpaceChar c = true) ∧
      toLowerL "TRUE".data = "true".data ∧ (3 : Int) ≠ 0) ∧
    isTruthy (GoVal.vStr ([' ', ' '] ++ "TRUE".data ++ [' '])) = true ∧
    isTruthy (GoVal.vNum 3) = true :=
  ⟨⟨by decide, by decide, by decide, by decide⟩,
   isTruthy_truthy_values.2.1 [' ', ' '] "TRUE".data [' '] (by decide) (by decide) (by decide),
   isTruthy_truthy_values.2.2.1 3 (by decide)⟩

/-- C7: against a store holding exactly two jobs with distinct published
times, listing with limit 1 and offset 0 returns exactly the
newest-published row, and listing with limit 1 and offset 1 returns the
remaining job — the second row of the published-time-descending order,
i.e. the earlier-published of the two. -/
theorem listJobs_two_job_pagination (a b : Job) (st : List Job)
    (hab : b.publishedAt < a.publishedAt) (hst : st = [a, b] ∨ st = [b, a]) :
    listJobs st 1 0 [] = [a] ∧ listJobs st 1 1 [] = [b] := by
  have hsort : sortByPublishedDesc (applyJobFilters st []) = [a, b] := by
    rcases hst with h | h <;> subst h
    · simp [applyJobFilters, sortByPublishedDesc, insertDescJob, if_pos hab]
    · simp [applyJobFilters, sortByPublishedDesc, insertDescJob, if_neg (asymm hab)]
  constructor
  · simp [listJobs, hsort]
  · simp [listJobs, hsort]

/-- Closed witness for C7 at a concrete two-job store. -/
theorem listJobs_two_job_pagination_witness :
    (jobB.publishedAt < jobA.publishedAt) ∧
    listJobs [jobA, jobB] 1 0 [] = [jobA] ∧ listJobs [jobA, jobB] 1 1 [] = [jobB] :=
  ⟨by decide,
   (listJobs_two_job_pagination jobA jobB [jobA, jobB] (by decide) (Or.inl rfl)).1,
   (listJobs_two_job_pagination jobA jobB [jobA, jobB] (by decide) (Or.inl rfl)).2⟩

/-- C5 counterexample: a raw job stopped by the keyword pre-filter comes
back rejected with a nil trace — the returned result records neither a
prompt nor an answer, so the claim's "regardless of the result's outcome"
fails on this input. -/
theorem process_keyword_reject_has_no_trace :
    process cfgK llm0 parseLLM0 rawK =
      Except.ok ⟨Outcome.rejected, none, "missing required keywords".data, none⟩ :=
  rfl

/-- C5 amended: for every raw job that passes the keyword pre-filter and
for which `Process` returns a result (rather than a hard error), the
result carries a trace recording the exact prompt and the raw
completion-service answer text, for accepted and rejected outcomes
alike. -/
theorem process_trace_records_prompt_and_answer (cfg : ProcConfig)
    (llm : List Char → Except (List Char) (List Char))
    (parseLLM : List Char → Option LLMClassification) (raw : RawJob) (res : ProcResult)
    (hk : containsKeyword cfg
      (trimSpaceL (raw.title ++ "\n".data ++ raw.summary ++ "\n".data ++ raw.content)) = true)
    (hres : process cfg llm parseLLM raw = Except.ok res) :
    ∃ resp,
      llm (buildPrompt cfg
        (trimSpaceL (raw.title ++ "\n".data ++ raw.summary ++ "\n".data ++ raw.content))) =
        Except.ok resp ∧
      res.trace = some
        [("prompt".data, GoVal.vStr (buildPrompt cfg
            (trimSpaceL (raw.title ++ "\n".data ++ raw.summary ++ "\n".data ++ raw.content)))),
         ("llm_response".data, GoVal.vStr resp)] := by
  simp only [process] at hres
  rw [hk] at hres
  simp only [Bool.not_true] at hres
  rw [if_neg Bool.false_ne_true] at hres
  split at hres
  next e heq => exact Except.noConfusion hres
  next resp heq =>
    split at hres
    next heq2 => exact Except.noConfusion hres
    next payload heq2 =>
      split at hres
      next hcond =>
        refine ⟨resp, heq, ?_⟩
        have h3 := (Except.ok.injEq _ _).mp hres
        rw [← h3]
      next hcond =>
        refine ⟨resp, heq, ?_⟩
        have h3 := (Except.ok.injEq _ _).mp hres
        rw [← h3]

/-- Closed witness for the amended C5: a keyword-free configuration, a
fixed completion answer and a non-remote decode — the rejected result
still carries the prompt/answer trace. -/
theorem process_trace_records_prompt_and_answer_witness :
    (containsKeyword cfg0
      (trimSpaceL (rawK.title ++ "\n".data ++ rawK.summary ++ "\n".data ++ rawK.content)) = true) ∧
    (∃ resp,
      llm0 (buildPrompt cfg0
        (trimSpaceL (rawK.title ++ "\n".data ++ rawK.summary ++ "\n".data ++ rawK.content))) =
        Except.ok resp ∧
      (ProcResult.mk Outcome.rejected none "v0".data
        (some [("prompt".data, GoVal.vStr (buildPrompt cfg0
            (trimSpaceL (rawK.title ++ "\n".data ++ rawK.summary ++ "\n".data ++ rawK.content)))),
          ("llm_response".data, GoVal.vStr "ans0".data)])).trace = some
        [("prompt".data, GoVal.vStr (buildPrompt cfg0
            (trimSpaceL (rawK.title ++ "\n".data ++ rawK.summary ++ "\n".data ++ rawK.content)))),
         ("llm_response".data, GoVal.vStr resp)]) :=
  ⟨by decide,
   process_trace_records_prompt_and_answer cfg0 llm0 parseLLM0 rawK _ (by decide) rfl⟩

/-! ### Counting lemmas for the upsert "new" determination -/

theorem countNewJobs_fst_eq_length :
    ∀ (l : List Job) (seen : List (List Char)),
    (countNewJobs seen l).1 = (countNewJobs seen l).2.length
  | [], _ => rfl
  | j :: rest, seen => by
    by_cases h : j.id ∈ seen
    · simp [countNewJobs, h, countNewJobs_fst_eq_length rest seen]
    · simp [countNewJobs, h, countNewJobs_fst_eq_length rest (j.id :: seen)]

theorem countNewJobs_keys_nodup_fresh :
    ∀ (l : List Job) (seen : List (List Char)),
    ((countNewJobs seen l).2.map Job.id).Nodup ∧
    ∀ k ∈ (countNewJobs seen l).2.map Job.id, k ∉ seen
  | [], _ => by simp [countNewJobs]
  | j :: rest, seen => by
    by_cases h : j.id ∈ seen
    · simpa [countNewJobs, h] using countNewJobs_keys_nodup_fresh rest seen
    · have ih := countNewJobs_keys_nodup_fresh rest (j.id :: seen)
      simp only [countNewJobs, if_neg h, List.map_cons, List.nodup_cons]
      refine ⟨⟨fun hmem => ?_, ih.1⟩, fun k hk => ?_⟩
      · exact (ih.2 _ hmem) (List.mem_cons_self _ _)
      · rcases List.mem_cons.mp hk with hk | hk
        · exact hk ▸ h
        · exact fun hs => (ih.2 _ hk) (List.mem_cons_of_mem _ hs)

theorem countNewJobs_mem :
    ∀ (l : List Job) (seen : List (List Char)) (k : List Char),
    k ∈ l.map Job.id → k ∉ seen → k ∈ (countNewJobs seen l).2.map Job.id
  | [], _, _, hmem, _ => by simp at hmem
  | j :: rest, seen, k, hmem, hk => by
    by_cases h : j.id ∈ seen
    · have hne : k ≠ j.id := fun he => hk (he ▸ h)
      rw [List.map_cons] at hmem
      have hrest : k ∈ rest.map Job.id := by
        rcases List.mem_cons.mp hmem with he | he
        · exact absurd he hne
        · exact he
      simpa [countNewJobs, h] using countNewJobs_mem rest seen k hrest hk
    · by_cases he : k = j.id
      · simp [countNewJobs, h, he]
      · rw [List.map_cons] at hmem
        have hrest : k ∈ rest.map Job.id := by
          rcases List.mem_cons.mp hmem with h1 | h1
          · exact absurd h1 he
          · exact h1
        have hk' : k ∉ j.id :: seen := by simp [he, hk]
        simp only [countNewJobs, if_neg h, List.map_cons, List.mem_cons]
        exact Or.inr (countNewJobs_mem rest (j.id :: seen) k hrest hk')

theorem countNewRaw_fst_eq_length :
    ∀ (l : List RawJob) (seen : List (List Char × List Char)),
    (countNewRaw seen l).1 = (countNewRaw seen l).2.length
  | [], _ => rfl
  | j :: rest, seen => by
    by_cases h : rawKey j ∈ seen
    · simp [countNewRaw, h, countNewRaw_fst_eq_length rest seen]
    · simp [countNewRaw, h, countNewRaw_fst_eq_length rest (rawKey j :: seen)]

theorem countNewRaw_keys_nodup_fresh :
    ∀ (l : List RawJob) (seen : List (List Char × List Char)),
    ((countNewRaw seen l).2.map rawKey).Nodup ∧
    ∀ k ∈ (countNewRaw seen l).2.map rawKey, k ∉ seen
  | [], _ => by simp [countNewRaw]
  | j :: rest, seen => by
    by_cases h : rawKey j ∈ seen
    · simpa [countNewRaw, h] using countNewRaw_keys_nodup_fresh rest seen
    · have ih := countNewRaw_keys_nodup_fresh rest (rawKey j :: seen)
      simp only [countNewRaw, if_neg h, List.map_cons, List.nodup_cons]
      refine ⟨⟨fun hmem => ?_, ih.1⟩, fun k hk => ?_⟩
      · exact (ih.2 _ hmem) (List.mem_cons_self _ _)
      · rcases List.mem_cons.mp hk with hk | hk
        · exact hk ▸ h
        · exact fun hs => (ih.2 _ hk) (List.mem_cons_of_mem _ hs)

theorem countNewRaw_mem :
    ∀ (l : List RawJob) (seen : List (List Char × List Char)) (k : List Char × List Char),
    k ∈ l.map rawKey → k ∉ seen → k ∈ (countNewRaw seen l).2.map rawKey
  | [], _, _, hmem, _ => by simp at hmem
  | j :: rest, seen, k, hmem, hk => by
    by_cases h : rawKey j ∈ seen
    · have hne : k ≠ rawKey j := fun he => hk (he ▸ h)
      rw [List.map_cons] at hmem
      have hrest : k ∈ rest.map rawKey := by
        rcases List.mem_cons.mp hmem with he | he
        · exact absurd he hne
        · exact he
      simpa [countNewRaw, h] using countNewRaw_mem rest seen k hrest hk
    · by_cases he : k = rawKey j
      · simp [countNewRaw, h, he]
      · rw [List.map_cons] at hmem
        have hrest : k ∈ rest.map rawKey := by
          rcases List.mem_cons.mp hmem with h1 | h1
          · exact absurd h1 he
          · exact h1
        have hk' : k ∉ rawKey j :: seen := by simp [he, hk]
        simp only [countNewRaw, if_neg h, List.map_cons, List.mem_cons]
        exact Or.inr (countNewRaw_mem rest (rawKey j :: seen) k hrest hk')

theorem rawKey_defaultPendingStatus (r : RawJob) :
    rawKey (defaultPendingStatus r) = rawKey r := by
  unfold defaultPendingStatus
  split <;> rfl

theorem map_rawKey_default (batch : List RawJob) :
    (batch.map defaultPendingStatus).map rawKey = batch.map rawKey := by
  rw [List.map_map]
  exact List.map_congr_left fun r _ => rawKey_defaultPendingStatus r

/-- C9: a batch submitted to either upsert that holds two or more entries
with the same key (job id, respectively (source, external id)) absent
from the store counts that key exactly once: the created count equals the
new-record list's length, the new-record keys are pairwise distinct, and
the key does appear among them. -/
theorem upsert_counts_batch_key_once :
    (∀ (st : List Job) (now : Int) (batch : List Job) (k : List Char),
      k ∈ batch.map Job.id → k ∉ st.map Job.id →
      (upsertJobs st now batch).2.created = (upsertJobs st now batch).2.newJobs.length ∧
      ((upsertJobs st now batch).2.newJobs.map Job.id).Nodup ∧
      k ∈ (upsertJobs st now batch).2.newJobs.map Job.id) ∧
    (∀ (st : List RawJob) (now : Int) (batch : List RawJob) (k : List Char × List Char),
      k ∈ batch.map rawKey → k ∉ st.map rawKey →
      (upsertRawJobs st now batch).2.created = (upsertRawJobs st now batch).2.newJobs.length ∧
      ((upsertRawJobs st now batch).2.newJobs.map rawKey).Nodup ∧
      k ∈ (upsertRawJobs st now batch).2.newJobs.map rawKey) := by
  constructor
  · intro st now batch k hmem hst
    cases batch with
    | nil => simp at hmem
    | cons b bs =>
      have hfresh : k ∉ (st.map Job.id).filter fun x => x ∈ (b :: bs).map Job.id := by
        intro hc
        exact hst (List.mem_filter.mp hc).1
      have he : (upsertJobs st now (b :: bs)).2 =
          ⟨(countNewJobs ((st.map Job.id).filter fun x => x ∈ (b :: bs).map Job.id) (b :: bs)).1,
           (countNewJobs ((st.map Job.id).filter fun x => x ∈ (b :: bs).map Job.id) (b :: bs)).2⟩ :=
        rfl
      rw [he]
      exact ⟨countNewJobs_fst_eq_length _ _, (countNewJobs_keys_nodup_fresh _ _).1,
        countNewJobs_mem _ _ k hmem hfresh⟩
  · intro st now batch k hmem hst
    cases batch with
    | nil => simp at hmem
    | cons b bs =>
      have hmem' : k ∈ ((b :: bs).map defaultPendingStatus).map rawKey := by
        rw [map_rawKey_default]
        exact hmem
      have hfresh : k ∉ (st.map rawKey).filter
          fun x => x ∈ ((b :: bs).map defaultPendingStatus).map rawKey := by
        intro hc
        exact hst (List.mem_filter.mp hc).1
      have he : (upsertRawJobs st now (b :: bs)).2 =
          ⟨(countNewRaw ((st.map rawKey).filter
              fun x => x ∈ ((b :: bs).map defaultPendingStatus).map rawKey)
              ((b :: bs).map defaultPendingStatus)).1,
           (countNewRaw ((st.map rawKey).filter
              fun x => x ∈ ((b :: bs).map defaultPendingStatus).map rawKey)
              ((b :: bs).map defaultPendingStatus)).2⟩ :=
        rfl
      rw [he]
      exact ⟨countNewRaw_fst_eq_length _ _, (countNewRaw_keys_nodup_fresh _ _).1,
        countNewRaw_mem _ _ k hmem' hfresh⟩

/-- Closed witness for C9: a two-entry batch under one unseen key, for
both the final-job and the raw-job upsert, yields that key exactly once. -/
theorem upsert_counts_batch_key_once_witness :
    ("d".data ∈ [jobDup, jobDup].map Job.id ∧
     "d".data ∉ ([] : List Job).map Job.id ∧
     ("eleduck".data, "e9".data) ∈ [rawDup, rawDup].map rawKey ∧
     ("eleduck".data, "e9".data) ∉ ([] : List RawJob).map rawKey) ∧
    ((upsertJobs [] 1 [jobDup, jobDup]).2.created =
      (upsertJobs [] 1 [jobDup, jobDup]).2.newJobs.length ∧
     ((upsertJobs [] 1 [jobDup, jobDup]).2.newJobs.map Job.id).Nodup ∧
     "d".data ∈ (upsertJobs [] 1 [jobDup, jobDup]).2.newJobs.map Job.id) ∧
    ((upsertRawJobs [] 1 [rawDup, rawDup]).2.created =
      (upsertRawJobs [] 1 [rawDup, rawDup]).2.newJobs.length ∧
     ((upsertRawJobs [] 1 [rawDup, rawDup]).2.newJobs.map rawKey).Nodup ∧
     ("eleduck".data, "e9".data) ∈ (upsertRawJobs [] 1 [rawDup, rawDup]).2.newJobs.map rawKey) :=
  ⟨⟨by decide, by decide, by decide, by decide⟩,
   upsert_counts_batch_key_once.1 [] 1 [jobDup, jobDup] "d".data (by decide) (by decide),
   upsert_counts_batch_key_once.2 [] 1 [rawDup, rawDup] ("eleduck".data, "e9".data)
     (by decide) (by decide)⟩

/-- C10: updating an existing raw job with an empty status string
succeeds, silently defaulting the stored status to processed; the stored
classifier trace (llm_response) is overwritten only when a non-nil
details map is supplied and is left unchanged otherwise. -/
theorem updateRawJobStatus_empty_status_and_nil_details (st : List RawJob) (now : Int)
    (id : Nat) (upd : RawJobStatusUpdate) (h : ∃ r ∈ st, r.id = id) :
    ∃ st', updateRawJobStatus st now id upd = Except.ok st' ∧
      (upd.status = [] → ∀ r ∈ st', r.id = id → r.status = rawJobStatusProcessed) ∧
      (upd.details = none → st'.map RawJob.llmResponse = st.map RawJob.llmResponse) ∧
      (∀ m, upd.details = some m → ∀ r ∈ st', r.id = id → r.llmResponse = some m) := by
  rcases h with ⟨r0, hr0, hid⟩
  have hany : (st.any fun r => r.id == id) = true :=
    List.any_eq_true.mpr ⟨r0, hr0, by simp [hid]⟩
  unfold updateRawJobStatus
  rw [if_pos hany]
  refine ⟨_, rfl, ?_, ?_, ?_⟩
  · intro hs r hr hrid
    rcases List.mem_map.mp hr with ⟨r1, _, rfl⟩
    by_cases h1 : r1.id = id
    · simp [h1, hs]
    · simp only [if_neg h1] at hrid
      exact absurd hrid h1
  · intro hd
    rw [List.map_map]
    refine List.map_congr_left fun r _ => ?_
    by_cases h1 : r.id = id
    · simp [h1, hd]
    · simp [h1]
  · intro m hm r hr hrid
    rcases List.mem_map.mp hr with ⟨r1, _, rfl⟩
    by_cases h1 : r1.id = id
    · simp [h1, hm]
    · simp only [if_neg h1] at hrid
      exact absurd hrid h1

/-- Closed witness for C10 at a one-row store with an empty status and a
nil details map. -/
theorem updateRawJobStatus_empty_status_and_nil_details_witness :
    (∃ r ∈ [rawStored], r.id = 1) ∧
    (∃ st', updateRawJobStatus [rawStored] 8 1 updEmpty = Except.ok st' ∧
      (updEmpty.status = [] → ∀ r ∈ st', r.id = 1 → r.status = rawJobStatusProcessed) ∧
      (updEmpty.details = none →
        st'.map RawJob.llmResponse = [rawStored].map RawJob.llmResponse) ∧
      (∀ m, updEmpty.details = some m → ∀ r ∈ st', r.id = 1 → r.llmResponse = some m)) :=
  ⟨⟨rawStored, by simp, rfl⟩,
   updateRawJobStatus_empty_status_and_nil_details [rawStored] 8 1 updEmpty
     ⟨rawStored, by simp, rfl⟩⟩

/-! ### Lemmas about the raw write phase -/

theorem rawKey_updVolRaw (now : Int) (j r : RawJob) :
    rawKey (updVolRaw now j r) = rawKey r := by
  unfold updVolRaw
  split <;> rfl

theorem projRaw_updVolRaw (now : Int) (j r : RawJob) :
    projRaw (updVolRaw now j r) = projRaw r := by
  unfold updVolRaw
  split <;> rfl

theorem map_rawKey_updVolRaw (now : Int) (j : RawJob) (st : List RawJob) :
    (st.map (updVolRaw now j)).map rawKey = st.map rawKey := by
  rw [List.map_map]
  exact List.map_congr_left fun r _ => rawKey_updVolRaw now j r

theorem upsertOneRaw_keys_superset (now : Int) (st : List RawJob) (j : RawJob) :
    ∀ k ∈ st.map rawKey, k ∈ (upsertOneRaw now st j).map rawKey := by
  intro k hk
  unfold upsertOneRaw
  by_cases h : rawKey j ∈ st.map rawKey
  · rw [if_pos h, map_rawKey_updVolRaw]
    exact hk
  · rw [if_neg h, List.map_append]
    exact List.mem_append_left _ hk

theorem upsertOneRaw_key_mem (now : Int) (st : List RawJob) (j : RawJob) :
    rawKey j ∈ (upsertOneRaw now st j).map rawKey := by
  unfold upsertOneRaw
  by_cases h : rawKey j ∈ st.map rawKey
  · rw [if_pos h, map_rawKey_updVolRaw]
    exact h
  · rw [if_neg h, List.map_append]
    exact List.mem_append_right _ (by simp [rawKey])

theorem writeRaw_keys_superset (now : Int) :
    ∀ (batch : List RawJob) (st : List RawJob) (k : List Char × List Char),
    k ∈ st.map rawKey → k ∈ (writeRaw now st batch).map rawKey
  | [], _, _, hk => hk
  | j :: rest, st, k, hk =>
    writeRaw_keys_superset now rest (upsertOneRaw now st j) k
      (upsertOneRaw_keys_superset now st j k hk)

theorem writeRaw_batch_keys (now : Int) :
    ∀ (batch : List RawJob) (st : List RawJob) (j : RawJob),
    j ∈ batch → rawKey j ∈ (writeRaw now st batch).map rawKey
  | [], _, _, hj => absurd hj (List.not_mem_nil _)
  | b :: rest, st, j, hj => by
    rcases List.mem_cons.mp hj with rfl | hj
    · exact writeRaw_keys_superset now rest (upsertOneRaw now st j) _
        (upsertOneRaw_key_mem now st j)
    · exact writeRaw_batch_keys now rest (upsertOneRaw now st b) j hj

theorem writeRaw_proj_of_all_present (now : Int) :
    ∀ (batch : List RawJob) (st : List RawJob),
    (∀ j ∈ batch, rawKey j ∈ st.map rawKey) →
    (writeRaw now st batch).map projRaw = st.map projRaw ∧
    (writeRaw now st batch).map rawKey = st.map rawKey
  | [], _, _ => ⟨rfl, rfl⟩
  | j :: rest, st, hall => by
    have hj : rawKey j ∈ st.map rawKey := hall j (List.mem_cons_self _ _)
    have hone : upsertOneRaw now st j = st.map (updVolRaw now j) := by
      unfold upsertOneRaw
      rw [if_pos hj]
    have hkeys : (upsertOneRaw now st j).map rawKey = st.map rawKey := by
      rw [hone, map_rawKey_updVolRaw]
    have hproj : (upsertOneRaw now st j).map projRaw = st.map projRaw := by
      rw [hone, List.map_map]
      exact List.map_congr_left fun r _ => projRaw_updVolRaw now j r
    have hall' : ∀ x ∈ rest, rawKey x ∈ (upsertOneRaw now st j).map rawKey := by
      intro x hx
      rw [hkeys]
      exact hall x (List.mem_cons_of_mem _ hx)
    have ih := writeRaw_proj_of_all_present now rest (upsertOneRaw now st j) hall'
    exact ⟨by rw [writeRaw, ih.1, hproj], by rw [writeRaw, ih.2, hkeys]⟩

theorem countNewRaw_all_seen :
    ∀ (l : List RawJob) (seen : List (List Char × List Char)),
    (∀ j ∈ l, rawKey j ∈ seen) → countNewRaw seen l = (0, [])
  | [], _, _ => rfl
  | j :: rest, seen, hall => by
    have hj : rawKey j ∈ seen := hall j (List.mem_cons_self _ _)
    simp only [countNewRaw, if_pos hj]
    exact countNewRaw_all_seen rest seen fun x hx => hall x (List.mem_cons_of_mem _ hx)

/-- C3: submitting the identical raw-job batch a second time yields a
created count of zero and an empty new-record list, and the second write
changes no record's non-volatile columns — in particular every record's
status and reason (as well as its key, row id, classifier trace and
creation time) are exactly what they were after the first submission; the
on-conflict clause assigns only title, summary, content, url, tags, raw
payload, published time and update time. -/
theorem upsertRawJobs_resubmission_idempotent (st : List RawJob) (now1 now2 : Int)
    (batch : List RawJob) :
    (upsertRawJobs (upsertRawJobs st now1 batch).1 now2 batch).2.created = 0 ∧
    (upsertRawJobs (upsertRawJobs st now1 batch).1 now2 batch).2.newJobs = [] ∧
    (upsertRawJobs (upsertRawJobs st now1 batch).1 now2 batch).1.map projRaw =
      (upsertRawJobs st now1 batch).1.map projRaw := by
  cases batch with
  | nil => exact ⟨rfl, rfl, rfl⟩
  | cons b bs =>
    have h1 : (upsertRawJobs st now1 (b :: bs)).1 =
        writeRaw now1 st ((b :: bs).map defaultPendingStatus) := rfl
    have hkeys : ∀ j ∈ (b :: bs).map defaultPendingStatus,
        rawKey j ∈ (writeRaw now1 st ((b :: bs).map defaultPendingStatus)).map rawKey :=
      fun j hj => writeRaw_batch_keys now1 _ st j hj
    have hseen : ∀ j ∈ (b :: bs).map defaultPendingStatus,
        rawKey j ∈ ((writeRaw now1 st ((b :: bs).map defaultPendingStatus)).map rawKey).filter
          fun k => k ∈ ((b :: bs).map defaultPendingStatus).map rawKey := by
      intro j hj
      apply List.mem_filter.mpr
      refine ⟨hkeys j hj, ?_⟩
      simp only [decide_eq_true_eq]
      exact List.mem_map_of_mem rawKey hj
    have hcount := countNewRaw_all_seen ((b :: bs).map defaultPendingStatus) _ hseen
    have h2 : upsertRawJobs (writeRaw now1 st ((b :: bs).map defaultPendingStatus)) now2 (b :: bs) =
        (writeRaw now2 (writeRaw now1 st ((b :: bs).map defaultPendingStatus))
          ((b :: bs).map defaultPendingStatus),
         ⟨(countNewRaw (((writeRaw now1 st ((b :: bs).map defaultPendingStatus)).map rawKey).filter
              fun k => k ∈ ((b :: bs).map defaultPendingStatus).map rawKey)
            ((b :: bs).map defaultPendingStatus)).1,
          (countNewRaw (((writeRaw now1 st ((b :: bs).map defaultPendingStatus)).map rawKey).filter
              fun k => k ∈ ((b :: bs).map defaultPendingStatus).map rawKey)
            ((b :: bs).map defaultPendingStatus)).2⟩) := rfl
    rw [h1, h2]
    refine ⟨by rw [hcount], by rw [hcount], ?_⟩
    exact (writeRaw_proj_of_all_present now2 _ _ hkeys).1

/-! ### Lemmas about the crawl loop -/

theorem processPosts_stop_eq (b : List Char) (cut : Int) (posts : List Post) :
    ∀ (seen : List (List Char)) (acc : List Job),
    (processPosts b cut posts seen acc).stop = posts.any (stopPost cut) := by
  induction posts with
  | nil => intro seen acc; rfl
  | cons p rest ih =>
    intro seen acc
    cases hp : pickPublishedAt p with
    | empty => simp [processPosts, hp, stopPost, ih]
    | bad s => simp [processPosts, hp, stopPost, ih]
    | good s t =>
      by_cases h0 : t = 0
      · simp [processPosts, hp, stopPost, h0, ih]
      · by_cases hcut : t < cut
        · simp [processPosts, hp, stopPost, h0, hcut]
        · by_cases hr : hasRemoteTag p.tags
          · by_cases hd : normalizeID p.id ≠ [] ∧ normalizeID p.id ∈ seen
            · simp [processPosts, hp, stopPost, h0, hcut, hr, hd, ih]
            · simp [processPosts, hp, stopPost, h0, hcut, hr, hd, ih]
          · simp [processPosts, hp, stopPost, h0, hcut, hr, ih]

theorem processPosts_jobs_cutoff (b : List Char) (cut : Int) (posts : List Post) :
    ∀ (seen : List (List Char)) (acc : List Job),
    (∀ j ∈ acc, ¬ j.publishedAt < cut) →
    ∀ j ∈ (processPosts b cut posts seen acc).jobs, ¬ j.publishedAt < cut := by
  induction posts with
  | nil => intro seen acc hacc; simpa [processPosts] using hacc
  | cons p rest ih =>
    intro seen acc hacc
    cases hp : pickPublishedAt p with
    | empty => simpa [processPosts, hp] using ih seen acc hacc
    | bad s => simpa [processPosts, hp] using ih seen acc hacc
    | good s t =>
      by_cases h0 : t = 0
      · simpa [processPosts, hp, h0] using ih seen acc hacc
      · by_cases hcut : t < cut
        · simpa [processPosts, hp, h0, hcut] using hacc
        · by_cases hr : hasRemoteTag p.tags
          · by_cases hd : normalizeID p.id ≠ [] ∧ normalizeID p.id ∈ seen
            · simpa [processPosts, hp, h0, hcut, hr, hd] using ih seen acc hacc
            · have hacc' : ∀ j ∈ acc ++ [buildCandidate b p (normalizeID p.id) t],
                  ¬ j.publishedAt < cut := by
                intro j hj
                rcases List.mem_append.mp hj with hj | hj
                · exact hacc j hj
                · rw [List.mem_singleton.mp hj]
                  exact hcut
              simpa [processPosts, hp, h0, hcut, hr, hd] using
                ih (if normalizeID p.id ≠ [] then normalizeID p.id :: seen else seen)
                  (acc ++ [buildCandidate b p (normalizeID p.id) t]) hacc'
          · simpa [processPosts, hp, h0, hcut, hr] using ih seen acc hacc

theorem processPosts_neIds (b : List Char) (cut : Int) (posts : List Post) :
    ∀ (seen : List (List Char)) (acc : List Job),
    (∀ s ∈ neIds acc, s ∈ seen) → (neIds acc).Nodup →
    (∀ s ∈ neIds (processPosts b cut posts seen acc).jobs,
       s ∈ (processPosts b cut posts seen acc).seen) ∧
    (neIds (processPosts b cut posts seen acc).jobs).Nodup := by
  induction posts with
  | nil => intro seen acc hcov hnd; exact ⟨hcov, hnd⟩
  | cons p rest ih =>
    intro seen acc hcov hnd
    cases hp : pickPublishedAt p with
    | empty => simpa [processPosts, hp] using ih seen acc hcov hnd
    | bad s => simpa [processPosts, hp] using ih seen acc hcov hnd
    | good s t =>
      by_cases h0 : t = 0
      · simpa [processPosts, hp, h0] using ih seen acc hcov hnd
      · by_cases hcut : t < cut
        · simp only [processPosts, hp, if_neg h0, if_pos hcut]
          exact ⟨hcov, hnd⟩
        · by_cases hr : hasRemoteTag p.tags
          · by_cases hd : normalizeID p.id ≠ [] ∧ normalizeID p.id ∈ seen
            · simpa [processPosts, hp, h0, hcut, hr, hd] using ih seen acc hcov hnd
            · by_cases hid : normalizeID p.id = []
              · have hne : neIds (acc ++ [buildCandidate b p (normalizeID p.id) t]) =
                    neIds acc := by
                  simp [neIds, buildCandidate, hid]
                have h1 := ih seen (acc ++ [buildCandidate b p (normalizeID p.id) t])
                  (by rw [hne]; exact hcov) (by rw [hne]; exact hnd)
                simpa [processPosts, hp, h0, hcut, hr, hd, hid] using h1
              · have hnotseen : normalizeID p.id ∉ seen := by
                  intro hs
                  exact hd ⟨hid, hs⟩
                have hne : neIds (acc ++ [buildCandidate b p (normalizeID p.id) t]) =
                    neIds acc ++ [normalizeID p.id] := by
                  simp [neIds, buildCandidate, hid]
                have hcov' : ∀ x ∈ neIds (acc ++ [buildCandidate b p (normalizeID p.id) t]),
                    x ∈ normalizeID p.id :: seen := by
                  intro x hx
                  rw [hne] at hx
                  rcases List.mem_append.mp hx with hx | hx
                  · exact List.mem_cons_of_mem _ (hcov x hx)
                  · rw [List.mem_singleton.mp hx]
                    exact List.mem_cons_self _ _
                have hnd' : (neIds (acc ++ [buildCandidate b p (normalizeID p.id) t])).Nodup := by
                  rw [hne, List.nodup_append]
                  refine ⟨hnd, List.nodup_singleton _, ?_⟩
                  intro x hx hx1
                  rw [List.mem_singleton.mp hx1] at hx
                  exact hnotseen (hcov _ hx)
                have h1 := ih (normalizeID p.id :: seen)
                  (acc ++ [buildCandidate b p (normalizeID p.id) t]) hcov' hnd'
                simpa [processPosts, hp, h0, hcut, hr, hd, hid, hnotseen] using h1
          · simpa [processPosts, hp, h0, hcut, hr] using ih seen acc hcov hnd

theorem all_of_any_eq_false {α : Type} (p : α → Bool) :
    ∀ (l : List α), l.any p = false → ∀ x ∈ l, p x = false := by
  intro l h x hx
  cases hpx : p x
  · rfl
  · exfalso
    have h2 : l.any p = true := List.any_eq_true.mpr ⟨x, hx, hpx⟩
    rw [h] at h2
    exact Bool.false_ne_true h2

theorem goodLog_append_page {oracle : PageOracle} {cut : Int}
    {log : List (List Char × Nat)} {cat : List Char} {page : Nat}
    (hlog : goodLog oracle cut log)
    (hpre : ∀ q, 1 ≤ q → q < page → cleanPage oracle cut cat q) :
    goodLog oracle cut (log ++ [(cat, page)]) := by
  intro c p hm q h1 hq
  rcases List.mem_append.mp hm with hm | hm
  · exact hlog c p hm q h1 hq
  · have h2 := List.mem_singleton.mp hm
    rw [Prod.mk.injEq] at h2
    obtain ⟨rfl, rfl⟩ := h2
    exact hpre q h1 hq

theorem crawlPages_jobs_cutoff (oracle : PageOracle) (b : List Char) (cut : Int)
    (cat : List Char) :
    ∀ (count page : Nat) (st : CrawlSt),
    (∀ j ∈ st.jobs, ¬ j.publishedAt < cut) →
    ∀ j ∈ ((crawlPages oracle b cut cat page count st).1).jobs, ¬ j.publishedAt < cut := by
  intro count
  induction count with
  | zero => intro page st h; simpa [crawlPages] using h
  | succ n ih =>
    intro page st h
    cases ho : oracle cat page with
    | error e => simpa [crawlPages, ho] using h
    | ok posts =>
      have hr := processPosts_jobs_cutoff b cut posts st.seen st.jobs h
      by_cases hstop : (processPosts b cut posts st.seen st.jobs).stop
      · simpa [crawlPages, ho, hstop] using hr
      · simpa [crawlPages, ho, hstop] using
          ih (page + 1) ⟨(processPosts b cut posts st.seen st.jobs).seen,
            (processPosts b cut posts st.seen st.jobs).jobs, st.log ++ [(cat, page)]⟩ hr

theorem crawlPages_goodLog (oracle : PageOracle) (b : List Char) (cut : Int)
    (cat : List Char) :
    ∀ (count page : Nat) (st : CrawlSt),
    goodLog oracle cut st.log →
    (∀ q, 1 ≤ q → q < page → cleanPage oracle cut cat q) →
    goodLog oracle cut ((crawlPages oracle b cut cat page count st).1).log := by
  intro count
  induction count with
  | zero => intro page st hlog _; simpa [crawlPages] using hlog
  | succ n ih =>
    intro page st hlog hpre
    cases ho : oracle cat page with
    | error e => simpa [crawlPages, ho] using goodLog_append_page hlog hpre
    | ok posts =>
      by_cases hstop : (processPosts b cut posts st.seen st.jobs).stop
      · simpa [crawlPages, ho, hstop] using goodLog_append_page hlog hpre
      · have hclean : ∀ q, 1 ≤ q → q < page + 1 → cleanPage oracle cut cat q := by
          intro q h1 hq
          rcases Nat.lt_succ_iff_lt_or_eq.mp hq with hq | rfl
          · exact hpre q h1 hq
          · refine ⟨posts, ho, ?_⟩
            have hany : posts.any (stopPost cut) = false := by
              rw [← processPosts_stop_eq b cut posts st.seen st.jobs]
              exact Bool.not_eq_true _ ▸ hstop
            exact all_of_any_eq_false _ posts hany
        simpa [crawlPages, ho, hstop] using
          ih (page + 1) ⟨(processPosts b cut posts st.seen st.jobs).seen,
            (processPosts b cut posts st.seen st.jobs).jobs, st.log ++ [(cat, page)]⟩
            (goodLog_append_page hlog hpre) hclean

theorem crawlPages_neIds (oracle : PageOracle) (b : List Char) (cut : Int)
    (cat : List Char) :
    ∀ (count page : Nat) (st : CrawlSt),
    (∀ s ∈ neIds st.jobs, s ∈ st.seen) → (neIds st.jobs).Nodup →
    (∀ s ∈ neIds ((crawlPages oracle b cut cat page count st).1).jobs,
       s ∈ ((crawlPages oracle b cut cat page count st).1).seen) ∧
    (neIds ((crawlPages oracle b cut cat page count st).1).jobs).Nodup := by
  intro count
  induction count with
  | zero => intro page st hcov hnd; exact ⟨by simpa [crawlPages] using hcov,
      by simpa [crawlPages] using hnd⟩
  | succ n ih =>
    intro page st hcov hnd
    cases ho : oracle cat page with
    | error e =>
      exact ⟨by simpa [crawlPages, ho] using hcov, by simpa [crawlPages, ho] using hnd⟩
    | ok posts =>
      have hr := processPosts_neIds b cut posts st.seen st.jobs hcov hnd
      by_cases hstop : (processPosts b cut posts st.seen st.jobs).stop
      · exact ⟨by simpa [crawlPages, ho, hstop] using hr.1,
          by simpa [crawlPages, ho, hstop] using hr.2⟩
      · have h2 := ih (page + 1) ⟨(processPosts b cut posts st.seen st.jobs).seen,
          (processPosts b cut posts st.seen st.jobs).jobs, st.log ++ [(cat, page)]⟩ hr.1 hr.2
        exact ⟨by simpa [crawlPages, ho, hstop] using h2.1,
          by simpa [crawlPages, ho, hstop] using h2.2⟩

theorem crawlCats_jobs_cutoff (oracle : PageOracle) (b : List Char) (cut : Int)
    (maxPages : Nat) :
    ∀ (cats : List (List Char)) (st : CrawlSt),
    (∀ j ∈ st.jobs, ¬ j.publishedAt < cut) →
    ∀ j ∈ ((crawlCats oracle b cut maxPages cats st).1).jobs, ¬ j.publishedAt < cut := by
  intro cats
  induction cats with
  | nil => intro st h; simpa [crawlCats] using h
  | cons c rest ih =>
    intro st h
    have h1 := crawlPages_jobs_cutoff oracle b cut c maxPages 1 st h
    cases hcp : crawlPages oracle b cut c 1 maxPages st with
    | mk st' err =>
      rw [hcp] at h1
      cases err with
      | some e => simpa [crawlCats, hcp] using h1
      | none => simpa [crawlCats, hcp] using ih st' h1

theorem crawlCats_goodLog (oracle : PageOracle) (b : List Char) (cut : Int)
    (maxPages : Nat) :
    ∀ (cats : List (List Char)) (st : CrawlSt),
    goodLog oracle cut st.log →
    goodLog oracle cut ((crawlCats oracle b cut maxPages cats st).1).log := by
  intro cats
  induction cats with
  | nil => intro st h; simpa [crawlCats] using h
  | cons c rest ih =>
    intro st h
    have h1 := crawlPages_goodLog oracle b cut c maxPages 1 st h
      (fun q hq1 hq2 => absurd (Nat.lt_of_lt_of_le hq2 hq1) (Nat.lt_irrefl q))
    cases hcp : crawlPages oracle b cut c 1 maxPages st with
    | mk st' err =>
      rw [hcp] at h1
      cases err with
      | some e => simpa [crawlCats, hcp] using h1
      | none => simpa [crawlCats, hcp] using ih st' h1

theorem crawlCats_neIds (oracle : PageOracle) (b : List Char) (cut : Int)
    (maxPages : Nat) :
    ∀ (cats : List (List Char)) (st : CrawlSt),
    (∀ s ∈ neIds st.jobs, s ∈ st.seen) → (neIds st.jobs).Nodup →
    (neIds ((crawlCats oracle b cut maxPages cats st).1).jobs).Nodup := by
  intro cats
  induction cats with
  | nil => intro st _ hnd; simpa [crawlCats] using hnd
  | cons c rest ih =>
    intro st hcov hnd
    have h1 := crawlPages_neIds oracle b cut c maxPages 1 st hcov hnd
    cases hcp : crawlPages oracle b cut c 1 maxPages st with
    | mk st' err =>
      rw [hcp] at h1
      cases err with
      | some e => simpa [crawlCats, hcp] using h1.2
      | none => simpa [crawlCats, hcp] using ih st' h1.1 h1.2

/-- C1: for every crawl run — any oracle, base URL, cutoff, page limit
and category list — no returned candidate has a published time strictly
before the cutoff, and every page that was requested is preceded, within
its category, only by pages that were fetched successfully and contained
no pre-cutoff post: paging for a category stops at the page carrying the
first pre-cutoff post. -/
theorem fetch_cutoff_and_page_stop (oracle : PageOracle) (baseURL : List Char)
    (cutoff : Int) (maxPages : Nat) (cats : List (List Char)) :
    (∀ l, (eleduckFetch oracle baseURL cutoff maxPages cats).result = Except.ok l →
       ∀ j ∈ l, ¬ j.publishedAt < cutoff) ∧
    (∀ cat p, (cat, p) ∈ (eleduckFetch oracle baseURL cutoff maxPages cats).log →
       ∀ q, 1 ≤ q → q < p → cleanPage oracle cutoff cat q) := by
  have hjobs := crawlCats_jobs_cutoff oracle baseURL cutoff maxPages cats ⟨[], [], []⟩
    (by intro j hj; exact absurd hj (List.not_mem_nil j))
  have hlog := crawlCats_goodLog oracle baseURL cutoff maxPages cats ⟨[], [], []⟩
    (by intro c p hm; exact absurd hm (List.not_mem_nil _))
  cases hcc : crawlCats oracle baseURL cutoff maxPages cats ⟨[], [], []⟩ with
  | mk st err =>
    rw [hcc] at hjobs hlog
    cases err with
    | some e =>
      constructor
      · intro l hl
        rw [show (eleduckFetch oracle baseURL cutoff maxPages cats).result =
            Except.error e by simp [eleduckFetch, hcc]] at hl
        exact absurd hl (by simp)
      · intro cat p hm
        rw [show (eleduckFetch oracle baseURL cutoff maxPages cats).log = st.log by
          simp [eleduckFetch, hcc]] at hm
        exact hlog cat p hm
    | none =>
      constructor
      · intro l hl
        rw [show (eleduckFetch oracle baseURL cutoff maxPages cats).result =
            Except.ok st.jobs by simp [eleduckFetch, hcc]] at hl
        rw [← (Except.ok.injEq _ _).mp hl]
        exact hjobs
      · intro cat p hm
        rw [show (eleduckFetch oracle baseURL cutoff maxPages cats).log = st.log by
          simp [eleduckFetch, hcc]] at hm
        exact hlog cat p hm

/-- Closed witness for C1: in the two-page run that hits the cutoff on
page 2, the returned candidate is not older than the cutoff, and page 1 —
the only page before the stopping page — was clean. -/
theorem fetch_cutoff_and_page_stop_witness :
    (¬ (buildCandidate base0 post1 "a1".data 20).publishedAt < 10) ∧
    cleanPage oracle0 10 catC 1 :=
  ⟨(fetch_cutoff_and_page_stop oracle0 base0 10 3 [catC]).1
      [buildCandidate base0 post1 "a1".data 20] rfl _ (List.mem_singleton.mpr rfl),
   (fetch_cutoff_and_page_stop oracle0 base0 10 3 [catC]).2 catC 2 (by decide) 1
     (by decide) (by decide)⟩

/-- C8 counterexample: a run over one page holding two distinct remote,
in-window posts whose ids both normalize to the empty string returns two
entries sharing that normalized id — the claim's "exactly one entry per
normalized id value" fails for the empty id, because the dedup set is
consulted only for non-empty ids. -/
theorem fetch_empty_id_not_dedup_counterexample :
    (eleduckFetch oracleE base0 10 1 [catC]).result =
      Except.ok [buildCandidate base0 postE1 [] 20, buildCandidate base0 postE2 [] 21] ∧
    (buildCandidate base0 postE1 [] 20).id = [] ∧
    (buildCandidate base0 postE2 [] 21).id = [] ∧
    (buildCandidate base0 postE1 [] 20).title ≠ (buildCandidate base0 postE2 [] 21).title :=
  ⟨rfl, rfl, rfl, by decide⟩

/-- C8 amended: for every crawl run and every non-empty normalized id
value, the successful output contains at most one candidate with that id
(its non-empty ids are pairwise distinct), and a later candidate whose
non-empty normalized id was already seen is dropped by the post scan
without being re-added — so the surviving entry is the first one
encountered.  Candidates whose id normalizes to the empty string bypass
the dedup set. -/
theorem fetch_dedups_nonempty_ids (oracle : PageOracle) (baseURL : List Char)
    (cutoff : Int) (maxPages : Nat) (cats : List (List Char)) :
    (∀ l, (eleduckFetch oracle baseURL cutoff maxPages cats).result = Except.ok l →
       (neIds l).Nodup) ∧
    (∀ (p : Post) (rest : List Post) (seen : List (List Char)) (acc : List Job),
       stopPost cutoff p = false → normalizeID p.id ≠ [] → normalizeID p.id ∈ seen →
       processPosts baseURL cutoff (p :: rest) seen acc =
         processPosts baseURL cutoff rest seen acc) := by
  constructor
  · intro l hl
    have hnd := crawlCats_neIds oracle baseURL cutoff maxPages cats ⟨[], [], []⟩
      (by intro s hs; exact absurd hs (List.not_mem_nil _)) (by simp [neIds])
    cases hcc : crawlCats oracle baseURL cutoff maxPages cats ⟨[], [], []⟩ with
    | mk st err =>
      rw [hcc] at hnd
      cases err with
      | some e =>
        rw [show (eleduckFetch oracle baseURL cutoff maxPages cats).result =
            Except.error e by simp [eleduckFetch, hcc]] at hl
        exact absurd hl (by simp)
      | none =>
        rw [show (eleduckFetch oracle baseURL cutoff maxPages cats).result =
            Except.ok st.jobs by simp [eleduckFetch, hcc]] at hl
        rw [← (Except.ok.injEq _ _).mp hl]
        exact hnd
  · intro p rest seen acc hstop hid hseen
    cases hp : pickPublishedAt p with
    | empty => simp [processPosts, hp]
    | bad s => simp [processPosts, hp]
    | good s t =>
      by_cases h0 : t = 0
      · simp [processPosts, hp, h0]
      · have hcut : ¬ t < cutoff := by
          simp only [stopPost, hp] at hstop
          intro hlt
          rw [Bool.and_eq_false_iff] at hstop
          rcases hstop with hstop | hstop
          · rcases Bool.eq_false_or_eq_true (t == 0) with hb | hb
            · exact h0 (beq_iff_eq.mp hb)
            · rw [hb] at hstop
              simp at hstop
          · rw [decide_eq_false_iff_not] at hstop
            exact hstop hlt
        by_cases hr : hasRemoteTag p.tags
        · simp [processPosts, hp, h0, hcut, hr, hid, hseen]
        · simp [processPosts, hp, h0, hcut, hr]

/-- Closed witness for the amended C8: the single-candidate run has
pairwise-distinct non-empty ids, and a post whose id "a1" is already in
the seen set is dropped by the scan. -/
theorem fetch_dedups_nonempty_ids_witness :
    (neIds [buildCandidate base0 post1 "a1".data 20]).Nodup ∧
    processPosts base0 10 [post1] ["a1".data] [] = processPosts base0 10 [] ["a1".data] [] :=
  ⟨(fetch_dedups_nonempty_ids oracle0 base0 10 3 [catC]).1
      [buildCandidate base0 post1 "a1".data 20] rfl,
   (fetch_dedups_nonempty_ids oracle0 base0 10 3 [catC]).2 post1 [] ["a1".data] []
     (by decide) (by decide) (by decide)⟩

end RemoteRadar
